import Mathlib

/-!
Verification of the map-tooling pipeline of this repository
(`tools/generate_navigation_grid.py` and `tools/generate_pathing_from_layers.py`).

The Python sources are shallowly embedded below: pure computations become Lean
functions, Python `dict`s become structures, Python sets become `Finset`s, and
the explicit-stack `while` loops of the two flood fills become a fuel-indexed
tail recursion (`ffLoop`) whose fuel argument is instantiated, at every call
site, with a bound proved sufficient for the loop to run to completion
(lemma `ffLoop_measure`-style hypotheses in the theorems below).  Machine
integers are modelled as `Nat`/`Int`; Python `//` on possibly negative
operands is `Int.fdiv`.
-/

/-- An RGB pixel, as the 3-tuple Python receives from `img.getpixel`. -/
abbrev RGB := Nat × Nat × Nat

/-- A cell / pixel coordinate `(x, y)`.  Coordinates are `Int` because the
flood fills push out-of-range neighbours such as `(-1, y)` onto their work
stacks and discard them only at pop time, exactly as the Python code does. -/
abbrev Cell := Int × Int

/-- A decoded RGB image: dimensions plus a pixel lookup (`img.getpixel`). -/
structure Image where
  width : Nat
  height : Nat
  pixel : Nat → Nat → RGB

/-- A boolean navigation grid.  The Python sources store it as a list of rows
with `grid[y][x]`; it is embedded as its dimensions plus the cell lookup
`cell x y = grid[y][x]`. -/
structure Grid where
  width : Nat
  height : Nat
  cell : Nat → Nat → Bool

/-- Bounds test used by both flood fills
(`x < 0 or x >= width or y < 0 or y >= height`, negated). -/
def Grid.inBounds (g : Grid) (p : Cell) : Bool :=
  decide (0 ≤ p.1) && decide (p.1 < (g.width : Int)) &&
    decide (0 ≤ p.2) && decide (p.2 < (g.height : Int))

/-- The guard of the 4-connected flood fill: in bounds and `grid[y][x]` true. -/
def Grid.trueCell (g : Grid) (p : Cell) : Bool :=
  g.inBounds p && g.cell p.1.toNat p.2.toNat

/-- Screen width of the target runtime (`SCREEN_WIDTH = 1280`). -/
def SCREEN_WIDTH : Nat := 1280

/-- Screen height of the target runtime (`SCREEN_HEIGHT = 720`). -/
def SCREEN_HEIGHT : Nat := 720

/-- `is_non_black_pixel` from `generate_pathing_from_layers.py`:
`max(pixel) > threshold`, default threshold 10. -/
def is_non_black_pixel (pixel : RGB) (threshold : Nat := 10) : Bool :=
  max pixel.1 (max pixel.2.1 pixel.2.2) > threshold

/-- Guard of the 8-connected cluster flood fill: in bounds and non-black. -/
def Image.nonBlackAt (img : Image) (p : Cell) : Bool :=
  (decide (0 ≤ p.1) && decide (p.1 < (img.width : Int)) &&
    decide (0 ≤ p.2) && decide (p.2 < (img.height : Int))) &&
    is_non_black_pixel (img.pixel p.1.toNat p.2.toNat)

/-- Pixel categories of `classify_pixel` in `generate_navigation_grid.py`. -/
inductive CellType where
  | ocean
  | land
  | edge
  | unknown
deriving DecidableEq

/-- Squared Euclidean RGB distance.  The Python helper `color_distance`
computes the square root; since `sqrt` is strictly monotone and
`sqrt d <= 30` iff `d <= 900`, the comparisons of `classify_pixel` are
modelled exactly by comparing squared distances against `30^2`. -/
def color_distance_sq (c1 c2 : RGB) : Int :=
  ((c1.1 : Int) - c2.1) ^ 2 + ((c1.2.1 : Int) - c2.2.1) ^ 2 +
    ((c1.2.2 : Int) - c2.2.2) ^ 2

/-- `classify_pixel` from `generate_navigation_grid.py`.  Python's
`min(distances, key=distances.get)` returns the first key of minimal value in
dict insertion order `ocean, land, edge`, which the nested conditionals below
reproduce; the tolerance test `distance <= 30` becomes `sq <= 900`. -/
def classify_pixel (pixel ocean_color land_color edge_color : RGB) : CellType :=
  let dO := color_distance_sq pixel ocean_color
  let dL := color_distance_sq pixel land_color
  let dE := color_distance_sq pixel edge_color
  if dO ≤ dL ∧ dO ≤ dE then (if dO ≤ 900 then .ocean else .unknown)
  else if dL ≤ dE then (if dL ≤ 900 then .land else .unknown)
  else (if dE ≤ 900 then .edge else .unknown)

/-- `image_to_screen_coords` from `generate_pathing_from_layers.py`.  The
Python body divides in floating point and truncates with `int(...)`; for the
nonnegative integer operands that occur here this is floor division, modelled
as `Nat` division. -/
def image_to_screen_coords (image_x image_y image_width image_height : Nat) :
    Nat × Nat :=
  ((image_x * SCREEN_WIDTH) / image_width,
    ((image_height - image_y) * SCREEN_HEIGHT) / image_height)

/-- `find_cluster_center` from `generate_pathing_from_layers.py`: `None` on an
empty cluster, otherwise the coordinatewise floor-divided mean
`(sum_x // count, sum_y // count)`.  Python `//` is floor division, `Int.fdiv`. -/
def find_cluster_center (cluster : List Cell) : Option Cell :=
  if cluster = [] then none
  else
    some ((cluster.map Prod.fst).sum.fdiv cluster.length,
      (cluster.map Prod.snd).sum.fdiv cluster.length)

/-- The four neighbours pushed by `flood_fill_connected_component`
(`[(x+1, y), (x-1, y), (x, y+1), (x, y-1)]`). -/
def nbrs4 (p : Cell) : List Cell :=
  [(p.1 + 1, p.2), (p.1 - 1, p.2), (p.1, p.2 + 1), (p.1, p.2 - 1)]

/-- The eight neighbours pushed by `flood_fill_cluster`, in the order produced
by its `dx`/`dy` loops. -/
def nbrs8 (p : Cell) : List Cell :=
  [(p.1 - 1, p.2 - 1), (p.1 - 1, p.2), (p.1 - 1, p.2 + 1),
    (p.1, p.2 - 1), (p.1, p.2 + 1),
    (p.1 + 1, p.2 - 1), (p.1 + 1, p.2), (p.1 + 1, p.2 + 1)]

/-- 4-connected (von Neumann) adjacency, stated independently of `nbrs4`. -/
def adj4 (p q : Cell) : Prop :=
  (q.1 = p.1 + 1 ∧ q.2 = p.2) ∨ (q.1 = p.1 - 1 ∧ q.2 = p.2) ∨
    (q.1 = p.1 ∧ q.2 = p.2 + 1) ∨ (q.1 = p.1 ∧ q.2 = p.2 - 1)

/-- 8-connected (Moore) adjacency, stated independently of `nbrs8`: the two
cells are distinct and each coordinate differs by at most one. -/
def adj8 (p q : Cell) : Prop :=
  ¬(q.1 = p.1 ∧ q.2 = p.2) ∧
    -1 ≤ q.1 - p.1 ∧ q.1 - p.1 ≤ 1 ∧ -1 ≤ q.2 - p.2 ∧ q.2 - p.2 ≤ 1

/-- The common explicit-stack flood-fill loop of both Python tools, as a
fuel-indexed recursion.  Per iteration it pops the head of the work stack,
skips it when already visited or when the guard `isT` rejects it, and
otherwise marks it visited and pushes its neighbours.  `filterPush` selects
the `flood_fill_cluster` variant, which pushes only neighbours not already in
the visited set; the result set is unaffected by this and by stack order.
Every iteration consumes one unit of fuel; callers pass a fuel bound proved
large enough for the stack to empty, so the embedded function computes the
exact result of the Python `while stack:` loop. -/
def ffLoop (isT : Cell → Bool) (nbrs : Cell → List Cell) (filterPush : Bool) :
    Nat → List Cell → Finset Cell → Finset Cell
  | 0, _, visited => visited
  | _ + 1, [], visited => visited
  | fuel + 1, p :: stack, visited =>
    if p ∈ visited then ffLoop isT nbrs filterPush fuel stack visited
    else if isT p then
      ffLoop isT nbrs filterPush fuel
        ((if filterPush then (nbrs p).filter (fun q => q ∉ insert p visited)
          else nbrs p) ++ stack)
        (insert p visited)
    else ffLoop isT nbrs filterPush fuel stack visited

/-- `flood_fill_connected_component` from `generate_navigation_grid.py`.  The
fuel `5 * width * height + 2` dominates the loop's termination measure (each
iteration pops one entry; at most `width * height` iterations insert a cell
and push four entries). -/
def flood_fill_connected_component (g : Grid) (start_x start_y : Nat) :
    Finset Cell :=
  if g.cell start_x start_y = false then ∅
  else
    ffLoop g.trueCell nbrs4 false (5 * (g.width * g.height) + 2)
      [((start_x : Int), (start_y : Int))] ∅

/-- Row-major enumeration of all cell coordinates, matching the nested
`for y in range(height): for x in range(width):` scans. -/
def scanCells (width height : Nat) : List (Nat × Nat) :=
  (List.range height).flatMap (fun y => (List.range width).map (fun x => (x, y)))

/-- The component-enumeration scan of `find_largest_connected_component`:
for each unvisited true cell in row-major order, flood fill its component,
add it to the visited set, and append it to the component list. -/
def scanComponents (g : Grid) :
    List (Nat × Nat) → Finset Cell → List (Finset Cell)
  | [], _ => []
  | (x, y) :: rest, visited =>
    if g.cell x y = true ∧ ((x : Int), (y : Int)) ∉ visited then
      flood_fill_connected_component g x y ::
        scanComponents g rest (visited ∪ flood_fill_connected_component g x y)
    else scanComponents g rest visited

/-- `find_largest_connected_component` from `generate_navigation_grid.py`:
enumerate components in row-major order, return `set()` when there are none,
else `max(components, key=len)` — Python's `max` keeps the first maximum, as
the fold below does. -/
def find_largest_connected_component (g : Grid) : Finset Cell :=
  match scanComponents g (scanCells g.width g.height) ∅ with
  | [] => ∅
  | c :: rest => rest.foldl (fun acc d => if acc.card < d.card then d else acc) c

/-- The in-place pruning loop of `generate_navigation_grid` (lines 218-225):
every true cell outside the largest component is flipped to false; the loop
ranges only over in-bounds coordinates, so out-of-range lookups (which do not
exist in the Python list representation) are left untouched. -/
def pruneGrid (g : Grid) : Grid :=
  { g with
    cell := fun x y =>
      if x < g.width ∧ y < g.height then
        g.cell x y &&
          decide (((x : Int), (y : Int)) ∈ find_largest_connected_component g)
      else g.cell x y }

/-- Centre-pixel sampling shared by both rasterizer loops:
`(cx*scale + scale//2, cy*scale + scale//2)` clamped to the image bounds. -/
def sampleCenter (img : Image) (scale cx cy : Nat) : RGB :=
  img.pixel (min (cx * scale + scale / 2) (img.width - 1))
    (min (cy * scale + scale / 2) (img.height - 1))

/-- The rasterizer loop of `generate_navigation_grid_from_water` (lines
288-310): one grid cell per full `scale x scale` block, each cell the
background test of its centre pixel. -/
def rasterize_water (img : Image) (scale : Nat) : Grid :=
  { width := img.width / scale
    height := img.height / scale
    cell := fun cx cy => is_non_black_pixel (sampleCenter img scale cx cy) }

/-- The rasterizer loop of `generate_navigation_grid` (lines 197-216): a cell
is accessible iff its centre pixel classifies as `ocean`. -/
def rasterize_map (img : Image) (scale : Nat)
    (ocean_color land_color edge_color : RGB) : Grid :=
  { width := img.width / scale
    height := img.height / scale
    cell := fun cx cy =>
      decide (classify_pixel (sampleCenter img scale cx cy)
        ocean_color land_color edge_color = CellType.ocean) }

/-- The output record of both grid generators (`width`, `height`, `scale`,
`image_width`, `image_height`, `grid`). -/
structure GridData where
  grid : Grid
  scale : Nat
  image_width : Nat
  image_height : Nat

/-- `generate_navigation_grid_from_water` (pure core, image already decoded):
rasterize the water layer and return it — no connected-component pruning is
performed in this workflow. -/
def generate_navigation_grid_from_water (img : Image) (scale : Nat) : GridData :=
  { grid := rasterize_water img scale
    scale := scale
    image_width := img.width
    image_height := img.height }

/-- `generate_navigation_grid` (pure core, image decoded and reference colors
given; the color auto-detection taken when colors are absent is outside the
claims): rasterize, then prune to the largest 4-connected component. -/
def generate_navigation_grid (img : Image) (scale : Nat)
    (ocean_color land_color edge_color : RGB) : GridData :=
  { grid := pruneGrid (rasterize_map img scale ocean_color land_color edge_color)
    scale := scale
    image_width := img.width
    image_height := img.height }

/-- `flood_fill_cluster` from `generate_pathing_from_layers.py`.  Returns the
cluster together with the updated global visited set (the Python function
mutates `visited_set` in place, adding exactly the cluster's pixels; the
returned cluster list and its `visited_cluster` set hold the same pixels, so
the cluster is modelled as that set).  Fuel as in the 4-connected fill, with
eight pushes per insertion. -/
def flood_fill_cluster (img : Image) (start_x start_y : Int)
    (visited_set : Finset Cell) : Finset Cell × Finset Cell :=
  if (start_x, start_y) ∈ visited_set then (∅, visited_set)
  else
    let c := ffLoop img.nonBlackAt nbrs8 true (9 * (img.width * img.height) + 2)
      [(start_x, start_y)] ∅
    (c, visited_set ∪ c)

/-- The cluster-collection scan of `detect_waypoints` (lines 179-189): for
each non-black unvisited pixel in row-major order, flood fill its cluster,
thread the visited set on, and keep the cluster iff it reaches
`cluster_min_size` (small clusters still mark their pixels visited). -/
def detectScan (img : Image) (cluster_min_size : Int) :
    List (Nat × Nat) → Finset Cell → List (Finset Cell)
  | [], _ => []
  | (x, y) :: rest, visited =>
    if is_non_black_pixel (img.pixel x y) = true ∧
        ((x : Int), (y : Int)) ∉ visited then
      let pr := flood_fill_cluster img x y visited
      if cluster_min_size ≤ (pr.1.card : Int) then
        pr.1 :: detectScan img cluster_min_size rest pr.2
      else detectScan img cluster_min_size rest pr.2
    else detectScan img cluster_min_size rest visited

/-- The list of pixel clusters produced by `detect_waypoints` (its waypoint
records are built from exactly these clusters, one per entry). -/
def detect_clusters (img : Image) (cluster_min_size : Int) :
    List (Finset Cell) :=
  detectScan img cluster_min_size (scanCells img.width img.height) ∅

/-- A port waypoint, reduced to the fields `assign_port_names` reads and
writes: the screen-space position and the metadata name. -/
structure PortWP where
  x : Int
  y : Int
  name : String
deriving DecidableEq

/-- ONE-STEP relation explored by `ffLoop`: both endpoints pass the guard and
the target is a pushed neighbour of the source. -/
def ffStep (isT : Cell → Bool) (nbrs : Cell → List Cell) (p q : Cell) : Prop :=
  isT p = true ∧ isT q = true ∧ q ∈ nbrs p

/-- Reachability along guard-true cells, the semantic content of a flood fill
started at `p`. -/
def ffReach (isT : Cell → Bool) (nbrs : Cell → List Cell) (p q : Cell) : Prop :=
  isT p = true ∧ Relation.ReflTransGen (ffStep isT nbrs) p q

/-- Termination measure of the flood-fill loop: each iteration pops one stack
entry, and an entry is expanded (pushing at most `K` neighbours) only when a
fresh cell of `dom` is marked visited. -/
def ffMeasure (dom : Finset Cell) (K : Nat) (stack : List Cell)
    (visited : Finset Cell) : Nat :=
  (K + 1) * ((dom.filter (fun q => q ∉ visited)).card) + stack.length

/-- The sort key of `assign_port_names`: compare ports by screen-space X
(`sorted(ports, key=lambda p: p['position']['x'])`). -/
def portLE (a b : PortWP) : Bool :=
  a.x ≤ b.x

/-- `assign_port_names` from `generate_pathing_from_layers.py`.  The Python
function stable-sorts the ports by `position.x`, renames the two-port case to
the fixed pair and otherwise gives the k-th port (1-based, ascending x) the
name `Port k (x=...)`; it mutates the dicts in place and returns the original
list.  It is modelled as returning the sorted list with the names assigned,
which carries the same name-per-port assignment. -/
def assign_port_names (ports : List PortWP) : List PortWP :=
  if ports.length = 0 then ports
  else if ports.length = 2 then
    match ports.mergeSort portLE with
    | [a, b] =>
      [{ a with name := "Caribbean Port" }, { b with name := "European Port" }]
    | l => l
  else
    (ports.mergeSort portLE).enum.map (fun ip =>
      { ip.2 with
        name := "Port " ++ toString (ip.1 + 1) ++ " (x=" ++ toString ip.2.x ++ ")" })

/-- From the specification's round-trip property: recover image-space X from
screen-space X with the known inverse scale factor `image_width / 1280`,
computed exactly over the rationals. -/
def screenToImageX (screen_x image_width : Nat) : ℚ :=
  ((screen_x : ℚ) * image_width) / SCREEN_WIDTH

/-- From the specification's round-trip property: recover image-space Y from
screen-space Y, reversing the Y flip, with the known inverse scale factor
`image_height / 720`, computed exactly over the rationals. -/
def screenToImageY (screen_y image_height : Nat) : ℚ :=
  (image_height : ℚ) - ((screen_y : ℚ) * image_height) / SCREEN_HEIGHT

/-- A 1x1 all-white test image. -/
def whiteDotImage : Image :=
  ⟨1, 1, fun _ _ => (255, 255, 255)⟩

/-- A 30x10 water layer whose middle third is black: two white regions
separated by a full-height black band. -/
def splitWaterImage : Image :=
  ⟨30, 10, fun x _ => if 10 ≤ x ∧ x < 20 then (0, 0, 0) else (255, 255, 255)⟩

/-- A 1x1 all-true grid. -/
def allTrueGrid1 : Grid :=
  ⟨1, 1, fun _ _ => true⟩

/-- A 1x1 all-false grid. -/
def allFalseGrid1 : Grid :=
  ⟨1, 1, fun _ _ => false⟩

/-- The finite box of in-bounds coordinates, used as the flood-fill domain. -/
def intBox (w h : Nat) : Finset Cell :=
  Finset.Icc (0 : Int) ((w : Int) - 1) ×ˢ Finset.Icc (0 : Int) ((h : Int) - 1)

/-- One 4-connected step between true in-bounds cells of a grid. -/
def step4 (g : Grid) (p q : Cell) : Prop :=
  g.trueCell p = true ∧ g.trueCell q = true ∧ adj4 p q

/-- 4-connected reachability through true cells ("mutually reachable via
4-connected true steps" in the specification). -/
def reach4 (g : Grid) (p q : Cell) : Prop :=
  g.trueCell p = true ∧ Relation.ReflTransGen (step4 g) p q

/-- One 8-connected step between non-background in-bounds pixels. -/
def step8 (img : Image) (p q : Cell) : Prop :=
  img.nonBlackAt p = true ∧ img.nonBlackAt q = true ∧ adj8 p q

/-- 8-connected reachability through non-background pixels. -/
def reach8 (img : Image) (p q : Cell) : Prop :=
  img.nonBlackAt p = true ∧ Relation.ReflTransGen (step8 img) p q

/-- 8-connected reachability staying inside a given pixel set ("reachable
from every other pixel of the same cluster through pixels of that cluster"). -/
def reachWithin8 (C : Finset Cell) (p q : Cell) : Prop :=
  p ∈ C ∧ Relation.ReflTransGen (fun a b => a ∈ C ∧ b ∈ C ∧ adj8 a b) p q

/-- A 4-connected component of the true cells of a grid: a nonempty set of
true cells, mutually reachable, and maximal (closed under true neighbours). -/
def isComponent (g : Grid) (C : Finset Cell) : Prop :=
  C.Nonempty ∧ (∀ p ∈ C, g.trueCell p = true) ∧
    (∀ p ∈ C, ∀ q ∈ C, reach4 g p q) ∧
    (∀ p ∈ C, ∀ q, adj4 p q → g.trueCell q = true → q ∈ C)

/-- Row-major scan index of a cell (`y * width + x`), the order in which the
component scan of `find_largest_connected_component` visits cells. -/
def rmIdx (g : Grid) (p : Cell) : Nat :=
  p.2.toNat * g.width + p.1.toNat

/-- The scan position at which a component is first encountered: the least
row-major index of any of its cells. -/
def firstScan (g : Grid) (C : Finset Cell) : WithTop Nat :=
  (C.image (rmIdx g)).min

/-- The component the specification says pruning keeps: a maximum-cardinality
4-connected component, and among those of maximal size the one first
encountered in row-major scan order. -/
def chosenComponent (g : Grid) (C : Finset Cell) : Prop :=
  isComponent g C ∧ (∀ D, isComponent g D → D.card ≤ C.card) ∧
    (∀ D, isComponent g D → D.card = C.card → firstScan g C ≤ firstScan g D)

/-- 4-connected adjacency is what the 4-neighbour push list enumerates. -/
theorem mem_nbrs4_iff (p q : Cell) : q ∈ nbrs4 p ↔ adj4 p q := by
  simp [nbrs4, adj4, Prod.ext_iff]

/-- 8-connected adjacency is what the 8-neighbour push list enumerates. -/
theorem mem_nbrs8_iff (p q : Cell) : q ∈ nbrs8 p ↔ adj8 p q := by
  simp only [nbrs8, adj8, List.mem_cons, List.not_mem_nil, or_false,
    Prod.ext_iff]
  omega

/-- The 4-neighbour relation is symmetric. -/
theorem adj4_symm {p q : Cell} (h : adj4 p q) : adj4 q p := by
  rcases h with ⟨h1, h2⟩ | ⟨h1, h2⟩ | ⟨h1, h2⟩ | ⟨h1, h2⟩
  · exact Or.inr (Or.inl ⟨by omega, by omega⟩)
  · exact Or.inl ⟨by omega, by omega⟩
  · exact Or.inr (Or.inr (Or.inr ⟨by omega, by omega⟩))
  · exact Or.inr (Or.inr (Or.inl ⟨by omega, by omega⟩))

/-- The 8-neighbour relation is symmetric. -/
theorem adj8_symm {p q : Cell} (h : adj8 p q) : adj8 q p := by
  unfold adj8 at h ⊢
  omega

/-- Membership in the (possibly visited-filtered) push list implies membership
in the neighbour list. -/
theorem mem_pushed_sub {fp : Bool} {l : List Cell} {vis : Finset Cell}
    {s : Cell} (hs : s ∈ (if fp then l.filter (fun q => q ∉ vis) else l)) :
    s ∈ l := by
  cases fp
  · exact hs
  · exact (List.mem_filter.1 hs).1

/-- An unvisited neighbour is always pushed, filtered or not. -/
theorem mem_pushed_of {fp : Bool} {l : List Cell} {vis : Finset Cell}
    {q : Cell} (hq : q ∈ l) (hqv : q ∉ vis) :
    q ∈ (if fp then l.filter (fun q => q ∉ vis) else l) := by
  cases fp
  · exact hq
  · exact List.mem_filter.2 ⟨hq, by simpa using hqv⟩

/-- Each 4-neighbour list has length at most 4. -/
theorem nbrs4_len (p : Cell) : (nbrs4 p).length ≤ 4 := by simp [nbrs4]

/-- Each 8-neighbour list has length at most 8. -/
theorem nbrs8_len (p : Cell) : (nbrs8 p).length ≤ 8 := by simp [nbrs8]

/-- Everything already visited stays in the flood-fill result. -/
theorem ffLoop_subset (isT : Cell → Bool) (nbrs : Cell → List Cell) (fp : Bool) :
    ∀ (fuel : Nat) (stack : List Cell) (visited : Finset Cell),
      visited ⊆ ffLoop isT nbrs fp fuel stack visited
  | 0, _, _ => by simp [ffLoop]
  | _ + 1, [], _ => by simp [ffLoop]
  | fuel + 1, p :: stack, visited => by
    simp only [ffLoop]
    by_cases hp : p ∈ visited
    · simpa [hp] using ffLoop_subset isT nbrs fp fuel stack visited
    · by_cases hT : isT p = true
      · simp only [hp, hT, if_true, if_false, if_neg hp]
        exact (Finset.subset_insert p visited).trans
          (ffLoop_subset isT nbrs fp fuel _ _)
      · simpa [hp, hT] using ffLoop_subset isT nbrs fp fuel stack visited

/-- Soundness of the flood fill: anything it adds to the visited set satisfies
any property `Q` that holds on the guard-true stack entries and is preserved
by guard-true neighbour steps. -/
theorem ffLoop_sound (isT : Cell → Bool) (nbrs : Cell → List Cell) (fp : Bool)
    (Q : Cell → Prop)
    (hQstep : ∀ p q, Q p → isT p = true → isT q = true → q ∈ nbrs p → Q q) :
    ∀ (fuel : Nat) (stack : List Cell) (visited : Finset Cell),
      (∀ s ∈ stack, isT s = true → Q s) →
      ∀ v ∈ ffLoop isT nbrs fp fuel stack visited, v ∈ visited ∨ Q v
  | 0, _, _ => by intro _ v hv; exact Or.inl hv
  | _ + 1, [], _ => by intro _ v hv; simp only [ffLoop] at hv; exact Or.inl hv
  | fuel + 1, p :: stack, visited => by
    intro hstack v hv
    simp only [ffLoop] at hv
    by_cases hp : p ∈ visited
    · rw [if_pos hp] at hv
      exact ffLoop_sound isT nbrs fp Q hQstep fuel stack visited
        (fun s hs => hstack s (List.mem_cons_of_mem p hs)) v hv
    · rw [if_neg hp] at hv
      by_cases hT : isT p = true
      · rw [if_pos hT] at hv
        have hQp : Q p := hstack p (List.mem_cons_self p stack) hT
        have hrec := ffLoop_sound isT nbrs fp Q hQstep fuel _ _ ?_ v hv
        · rcases hrec with hrec | hrec
          · rcases Finset.mem_insert.1 hrec with rfl | hrec
            · exact Or.inr hQp
            · exact Or.inl hrec
          · exact Or.inr hrec
        · intro s hs hTs
          rcases List.mem_append.1 hs with hs | hs
          · exact hQstep p s hQp hT hTs (mem_pushed_sub hs)
          · exact hstack s (List.mem_cons_of_mem p hs) hTs
      · rw [if_neg hT] at hv
        exact ffLoop_sound isT nbrs fp Q hQstep fuel stack visited
          (fun s hs => hstack s (List.mem_cons_of_mem p hs)) v hv

/-- Popping the stack head decreases the measure by exactly one. -/
theorem ffMeasure_cons (dom : Finset Cell) (K : Nat) (p : Cell)
    (stack : List Cell) (visited : Finset Cell) :
    ffMeasure dom K stack visited + 1 = ffMeasure dom K (p :: stack) visited := by
  simp only [ffMeasure, List.length_cons]
  omega

/-- Expanding an unvisited guard-true cell decreases the measure by at least
two (one fresh `dom` cell becomes visited, at most `K` entries are pushed). -/
theorem ffMeasure_insert (dom : Finset Cell) (K : Nat) (p : Cell)
    (pushed stack : List Cell) (visited : Finset Cell)
    (hp : p ∈ dom) (hpv : p ∉ visited) (hpush : pushed.length ≤ K) :
    ffMeasure dom K (pushed ++ stack) (insert p visited) + 2 ≤
      ffMeasure dom K (p :: stack) visited := by
  have hfil : dom.filter (fun q => q ∉ insert p visited) =
      (dom.filter (fun q => q ∉ visited)).erase p := by
    ext q
    simp only [Finset.mem_filter, Finset.mem_erase, Finset.mem_insert, not_or]
    tauto
  have hmemf : p ∈ dom.filter (fun q => q ∉ visited) :=
    Finset.mem_filter.2 ⟨hp, hpv⟩
  have hpos : 1 ≤ (dom.filter (fun q => q ∉ visited)).card :=
    Finset.card_pos.2 ⟨p, hmemf⟩
  have hcard : (dom.filter (fun q => q ∉ insert p visited)).card + 1 =
      (dom.filter (fun q => q ∉ visited)).card := by
    rw [hfil, Finset.card_erase_of_mem hmemf]
    omega
  unfold ffMeasure
  rw [List.length_append, List.length_cons, ← hcard, Nat.mul_succ]
  omega

/-- With measure-sufficient fuel, every guard-true stack entry ends up in the
flood-fill result. -/
theorem ffLoop_stack_mem (isT : Cell → Bool) (nbrs : Cell → List Cell)
    (fp : Bool) (dom : Finset Cell) (K : Nat)
    (hdom : ∀ p, isT p = true → p ∈ dom)
    (hK : ∀ p, (nbrs p).length ≤ K) :
    ∀ (fuel : Nat) (stack : List Cell) (visited : Finset Cell),
      ffMeasure dom K stack visited ≤ fuel →
      ∀ s ∈ stack, isT s = true → s ∈ ffLoop isT nbrs fp fuel stack visited
  | 0, stack, visited => by
    intro hfuel s hs _
    have : stack.length = 0 := by unfold ffMeasure at hfuel; omega
    rw [List.eq_nil_of_length_eq_zero this] at hs
    exact absurd hs (List.not_mem_nil s)
  | fuel + 1, [], _ => by intro _ s hs; exact absurd hs (List.not_mem_nil s)
  | fuel + 1, p :: stack, visited => by
    intro hfuel s hs hTs
    simp only [ffLoop]
    by_cases hp : p ∈ visited
    · rw [if_pos hp]
      rcases List.mem_cons.1 hs with rfl | hs
      · exact ffLoop_subset isT nbrs fp fuel stack visited hp
      · exact ffLoop_stack_mem isT nbrs fp dom K hdom hK fuel stack visited
          (by rw [← ffMeasure_cons dom K p stack visited] at hfuel; omega) s hs hTs
    · rw [if_neg hp]
      by_cases hT : isT p = true
      · rw [if_pos hT]
        have hpush : (if fp then (nbrs p).filter (fun q => q ∉ insert p visited)
            else nbrs p).length ≤ K := by
          cases fp
          · exact hK p
          · exact (List.length_filter_le _ _).trans (hK p)
        have hfuel' : ffMeasure dom K
            ((if fp then (nbrs p).filter (fun q => q ∉ insert p visited)
              else nbrs p) ++ stack) (insert p visited) ≤ fuel := by
          have := ffMeasure_insert dom K p _ stack visited (hdom p hT) hp hpush
          omega
        rcases List.mem_cons.1 hs with rfl | hs
        · exact ffLoop_subset isT nbrs fp fuel _ _ (Finset.mem_insert_self s visited)
        · exact ffLoop_stack_mem isT nbrs fp dom K hdom hK fuel _ _
            hfuel' s (List.mem_append_right _ hs) hTs
      · rw [if_neg hT]
        rcases List.mem_cons.1 hs with rfl | hs
        · exact absurd hTs hT
        · exact ffLoop_stack_mem isT nbrs fp dom K hdom hK fuel stack visited
            (by rw [← ffMeasure_cons dom K p stack visited] at hfuel; omega) s hs hTs

/-- With measure-sufficient fuel and the invariant that every guard-true
neighbour of a visited cell is visited or on the stack, the flood-fill result
is closed under guard-true neighbour steps. -/
theorem ffLoop_closed (isT : Cell → Bool) (nbrs : Cell → List Cell)
    (fp : Bool) (dom : Finset Cell) (K : Nat)
    (hdom : ∀ p, isT p = true → p ∈ dom)
    (hK : ∀ p, (nbrs p).length ≤ K) :
    ∀ (fuel : Nat) (stack : List Cell) (visited : Finset Cell),
      ffMeasure dom K stack visited ≤ fuel →
      (∀ v ∈ visited, ∀ q ∈ nbrs v, isT q = true → q ∈ visited ∨ q ∈ stack) →
      ∀ v ∈ ffLoop isT nbrs fp fuel stack visited, ∀ q ∈ nbrs v,
        isT q = true → q ∈ ffLoop isT nbrs fp fuel stack visited
  | 0, stack, visited => by
    intro hfuel hinv v hv q hq hTq
    have hlen : stack.length = 0 := by unfold ffMeasure at hfuel; omega
    rw [List.eq_nil_of_length_eq_zero hlen] at hinv
    simp only [ffLoop] at hv ⊢
    rcases hinv v hv q hq hTq with h | h
    · exact h
    · exact absurd h (List.not_mem_nil q)
  | fuel + 1, [], visited => by
    intro _ hinv v hv q hq hTq
    simp only [ffLoop] at hv ⊢
    rcases hinv v hv q hq hTq with h | h
    · exact h
    · exact absurd h (List.not_mem_nil q)
  | fuel + 1, p :: stack, visited => by
    intro hfuel hinv v hv q hq hTq
    simp only [ffLoop] at hv ⊢
    by_cases hp : p ∈ visited
    · rw [if_pos hp] at hv ⊢
      refine ffLoop_closed isT nbrs fp dom K hdom hK fuel stack visited
        (by rw [← ffMeasure_cons dom K p stack visited] at hfuel; omega)
        ?_ v hv q hq hTq
      intro w hw r hr hTr
      rcases hinv w hw r hr hTr with h | h
      · exact Or.inl h
      · rcases List.mem_cons.1 h with rfl | h
        · exact Or.inl hp
        · exact Or.inr h
    · rw [if_neg hp] at hv ⊢
      by_cases hT : isT p = true
      · rw [if_pos hT] at hv ⊢
        have hpush : (if fp then (nbrs p).filter (fun q => q ∉ insert p visited)
            else nbrs p).length ≤ K := by
          cases fp
          · exact hK p
          · exact (List.length_filter_le _ _).trans (hK p)
        have hfuel' : ffMeasure dom K
            ((if fp then (nbrs p).filter (fun q => q ∉ insert p visited)
              else nbrs p) ++ stack) (insert p visited) ≤ fuel := by
          have := ffMeasure_insert dom K p _ stack visited (hdom p hT) hp hpush
          omega
        refine ffLoop_closed isT nbrs fp dom K hdom hK fuel _ _
          hfuel' ?_ v hv q hq hTq
        intro w hw r hr hTr
        rcases Finset.mem_insert.1 hw with rfl | hw
        · by_cases hrv : r ∈ insert w visited
          · exact Or.inl hrv
          · exact Or.inr (List.mem_append_left _ (mem_pushed_of hr hrv))
        · rcases hinv w hw r hr hTr with h | h
          · exact Or.inl (Finset.mem_insert_of_mem h)
          · rcases List.mem_cons.1 h with rfl | h
            · exact Or.inl (Finset.mem_insert_self r visited)
            · exact Or.inr (List.mem_append_right _ h)
      · rw [if_neg hT] at hv ⊢
        refine ffLoop_closed isT nbrs fp dom K hdom hK fuel stack visited
          (by rw [← ffMeasure_cons dom K p stack visited] at hfuel; omega)
          ?_ v hv q hq hTq
        intro w hw r hr hTr
        rcases hinv w hw r hr hTr with h | h
        · exact Or.inl h
        · rcases List.mem_cons.1 h with rfl | h
          · exact absurd hTr hT
          · exact Or.inr h

/-- A set closed under guard-true neighbour steps contains everything
reachable from any of its members. -/
theorem reach_subset_of_closed (isT : Cell → Bool) (nbrs : Cell → List Cell)
    (S : Finset Cell)
    (hS : ∀ p ∈ S, ∀ q ∈ nbrs p, isT q = true → q ∈ S)
    (p q : Cell) (hp : p ∈ S)
    (h : Relation.ReflTransGen (ffStep isT nbrs) p q) : q ∈ S := by
  induction h with
  | refl => exact hp
  | tail _ hbc ih => exact hS _ ih _ hbc.2.2 hbc.2.1

/-- Reachability ends only at guard-true cells. -/
theorem ffReach_isT_right (isT : Cell → Bool) (nbrs : Cell → List Cell)
    {p q : Cell} (h : ffReach isT nbrs p q) : isT q = true := by
  obtain ⟨hp, hrtg⟩ := h
  induction hrtg with
  | refl => exact hp
  | tail _ hbc _ => exact hbc.2.1

/-- Reachability is symmetric whenever the neighbour lists are. -/
theorem ffReach_symm (isT : Cell → Bool) (nbrs : Cell → List Cell)
    (hsym : ∀ p q, q ∈ nbrs p → p ∈ nbrs q)
    {p q : Cell} (h : ffReach isT nbrs p q) : ffReach isT nbrs q p := by
  have hq := ffReach_isT_right isT nbrs h
  refine ⟨hq, ?_⟩
  have hsymStep : Symmetric (ffStep isT nbrs) :=
    fun a b hab => ⟨hab.2.1, hab.1, hsym a b hab.2.2⟩
  exact Relation.ReflTransGen.symmetric hsymStep h.2

/-- Reachability is transitive. -/
theorem ffReach_trans (isT : Cell → Bool) (nbrs : Cell → List Cell)
    {p q r : Cell} (h1 : ffReach isT nbrs p q) (h2 : ffReach isT nbrs q r) :
    ffReach isT nbrs p r :=
  ⟨h1.1, h1.2.trans h2.2⟩

/-- With measure-sufficient fuel, the flood fill started at a guard-true cell
computes exactly the set of cells reachable from it. -/
theorem ffLoop_run_iff (isT : Cell → Bool) (nbrs : Cell → List Cell)
    (fp : Bool) (dom : Finset Cell) (K : Nat)
    (hdom : ∀ p, isT p = true → p ∈ dom)
    (hK : ∀ p, (nbrs p).length ≤ K)
    (s : Cell) (hs : isT s = true) (fuel : Nat)
    (hfuel : ffMeasure dom K [s] ∅ ≤ fuel) :
    ∀ v, v ∈ ffLoop isT nbrs fp fuel [s] ∅ ↔ ffReach isT nbrs s v := by
  intro v
  constructor
  · intro hv
    have := ffLoop_sound isT nbrs fp (ffReach isT nbrs s)
      (fun p q hQ hTp hTq hqn => ⟨hQ.1, hQ.2.tail ⟨hTp, hTq, hqn⟩⟩)
      fuel [s] ∅ ?_ v hv
    · rcases this with h | h
      · exact absurd h (Finset.not_mem_empty v)
      · exact h
    · intro t ht _
      rw [List.mem_singleton] at ht
      subst ht
      exact ⟨hs, Relation.ReflTransGen.refl⟩
  · intro hr
    have hclosed := ffLoop_closed isT nbrs fp dom K hdom hK fuel [s] ∅ hfuel
      (fun w hw => absurd hw (Finset.not_mem_empty w))
    have hsmem := ffLoop_stack_mem isT nbrs fp dom K hdom hK fuel [s] ∅ hfuel
      s (List.mem_singleton.2 rfl) hs
    exact reach_subset_of_closed isT nbrs _
      (fun p hp q hq hTq => hclosed p hp q hq hTq) s v hsmem hr.2

/-- Cardinality of the in-bounds box. -/
theorem intBox_card (w h : Nat) : (intBox w h).card = w * h := by
  rw [intBox, Finset.card_product, Int.card_Icc, Int.card_Icc]
  have h1 : ((w : Int) - 1 + 1 - 0) = (w : Int) := by ring
  have h2 : ((h : Int) - 1 + 1 - 0) = (h : Int) := by ring
  rw [h1, h2, Int.toNat_natCast, Int.toNat_natCast]

/-- True cells lie in the in-bounds box. -/
theorem trueCell_mem_intBox (g : Grid) (p : Cell)
    (hp : g.trueCell p = true) : p ∈ intBox g.width g.height := by
  unfold Grid.trueCell Grid.inBounds at hp
  simp only [Bool.and_eq_true, decide_eq_true_eq] at hp
  obtain ⟨⟨⟨⟨h1, h2⟩, h3⟩, h4⟩, _⟩ := hp
  simp only [intBox, Finset.mem_product, Finset.mem_Icc]
  exact ⟨⟨h1, by omega⟩, ⟨h3, by omega⟩⟩

/-- Non-background pixels lie in the in-bounds box. -/
theorem nonBlackAt_mem_intBox (img : Image) (p : Cell)
    (hp : img.nonBlackAt p = true) : p ∈ intBox img.width img.height := by
  unfold Image.nonBlackAt at hp
  simp only [Bool.and_eq_true, decide_eq_true_eq] at hp
  obtain ⟨⟨⟨⟨h1, h2⟩, h3⟩, h4⟩, _⟩ := hp
  simp only [intBox, Finset.mem_product, Finset.mem_Icc]
  exact ⟨⟨h1, by omega⟩, ⟨h3, by omega⟩⟩

/-- Value of the measure on a fresh single-cell stack. -/
theorem ffMeasure_start (dom : Finset Cell) (K : Nat) (s : Cell) :
    ffMeasure dom K [s] ∅ = (K + 1) * dom.card + 1 := by
  unfold ffMeasure
  rw [Finset.filter_true_of_mem (fun q _ => Finset.not_mem_empty q)]
  simp

/-- The abstract flood-fill step over the grid guard is the 4-connected step. -/
theorem ffStep4_iff (g : Grid) (p q : Cell) :
    ffStep g.trueCell nbrs4 p q ↔ step4 g p q := by
  unfold ffStep step4
  rw [mem_nbrs4_iff]

/-- The abstract flood-fill reachability over the grid guard is `reach4`. -/
theorem ffReach4_iff (g : Grid) (p q : Cell) :
    ffReach g.trueCell nbrs4 p q ↔ reach4 g p q := by
  unfold ffReach reach4
  constructor <;> rintro ⟨h1, h2⟩ <;> refine ⟨h1, ?_⟩
  · exact h2.mono (fun a b hab => (ffStep4_iff g a b).1 hab)
  · exact h2.mono (fun a b hab => (ffStep4_iff g a b).2 hab)

/-- The abstract flood-fill step over the image guard is the 8-connected step. -/
theorem ffStep8_iff (img : Image) (p q : Cell) :
    ffStep img.nonBlackAt nbrs8 p q ↔ step8 img p q := by
  unfold ffStep step8
  rw [mem_nbrs8_iff]

/-- The abstract flood-fill reachability over the image guard is `reach8`. -/
theorem ffReach8_iff (img : Image) (p q : Cell) :
    ffReach img.nonBlackAt nbrs8 p q ↔ reach8 img p q := by
  unfold ffReach reach8
  constructor <;> rintro ⟨h1, h2⟩ <;> refine ⟨h1, ?_⟩
  · exact h2.mono (fun a b hab => (ffStep8_iff img a b).1 hab)
  · exact h2.mono (fun a b hab => (ffStep8_iff img a b).2 hab)

/-- The 4-neighbour push lists are symmetric. -/
theorem nbrs4_symm (p q : Cell) (h : q ∈ nbrs4 p) : p ∈ nbrs4 q :=
  (mem_nbrs4_iff q p).2 (adj4_symm ((mem_nbrs4_iff p q).1 h))

/-- The 8-neighbour push lists are symmetric. -/
theorem nbrs8_symm (p q : Cell) (h : q ∈ nbrs8 p) : p ∈ nbrs8 q :=
  (mem_nbrs8_iff q p).2 (adj8_symm ((mem_nbrs8_iff p q).1 h))

/-- Reachability ends only at true cells. -/
theorem reach4_trueCell_right {g : Grid} {p q : Cell} (h : reach4 g p q) :
    g.trueCell q = true := by
  obtain ⟨hp, hr⟩ := h
  induction hr with
  | refl => exact hp
  | tail _ hbc _ => exact hbc.2.1

/-- 4-connected reachability is symmetric. -/
theorem reach4_symm {g : Grid} {p q : Cell} (h : reach4 g p q) :
    reach4 g q p := by
  have hsym : Symmetric (step4 g) :=
    fun a b hab => ⟨hab.2.1, hab.1, adj4_symm hab.2.2⟩
  exact ⟨reach4_trueCell_right h, Relation.ReflTransGen.symmetric hsym h.2⟩

/-- 4-connected reachability is transitive. -/
theorem reach4_trans {g : Grid} {p q r : Cell} (h1 : reach4 g p q)
    (h2 : reach4 g q r) : reach4 g p r :=
  ⟨h1.1, h1.2.trans h2.2⟩

/-- 8-connected reachability ends only at non-background pixels. -/
theorem reach8_nonBlack_right {img : Image} {p q : Cell} (h : reach8 img p q) :
    img.nonBlackAt q = true := by
  obtain ⟨hp, hr⟩ := h
  induction hr with
  | refl => exact hp
  | tail _ hbc _ => exact hbc.2.1

/-- 8-connected reachability is symmetric. -/
theorem reach8_symm {img : Image} {p q : Cell} (h : reach8 img p q) :
    reach8 img q p := by
  have hsym : Symmetric (step8 img) :=
    fun a b hab => ⟨hab.2.1, hab.1, adj8_symm hab.2.2⟩
  exact ⟨reach8_nonBlack_right h, Relation.ReflTransGen.symmetric hsym h.2⟩

/-- 8-connected reachability is transitive. -/
theorem reach8_trans {img : Image} {p q r : Cell} (h1 : reach8 img p q)
    (h2 : reach8 img q r) : reach8 img p r :=
  ⟨h1.1, h1.2.trans h2.2⟩

/-- A set closed under true 4-neighbours absorbs 4-reach paths. -/
theorem reach4_closed_subset (g : Grid) (S : Finset Cell)
    (hS : ∀ p ∈ S, ∀ q, adj4 p q → g.trueCell q = true → q ∈ S)
    {p q : Cell} (hp : p ∈ S) (h : Relation.ReflTransGen (step4 g) p q) :
    q ∈ S := by
  induction h with
  | refl => exact hp
  | tail _ hbc ih => exact hS _ ih _ hbc.2.2 hbc.2.1

/-- A set closed under non-background 8-neighbours absorbs 8-reach paths. -/
theorem reach8_closed_subset (img : Image) (S : Finset Cell)
    (hS : ∀ p ∈ S, ∀ q, adj8 p q → img.nonBlackAt q = true → q ∈ S)
    {p q : Cell} (hp : p ∈ S) (h : Relation.ReflTransGen (step8 img) p q) :
    q ∈ S := by
  induction h with
  | refl => exact hp
  | tail _ hbc ih => exact hS _ ih _ hbc.2.2 hbc.2.1

/-- The 4-connected flood fill from an in-bounds true start cell returns
exactly the cells 4-reachable from it (and the empty set from a false start,
where nothing is 4-reachable because the start fails the guard). -/
theorem flood_fill_connected_component_spec (g : Grid) (sx sy : Nat)
    (hx : sx < g.width) (hy : sy < g.height) (v : Cell) :
    v ∈ flood_fill_connected_component g sx sy ↔
      reach4 g ((sx : Int), (sy : Int)) v := by
  unfold flood_fill_connected_component
  by_cases hc : g.cell sx sy = false
  · rw [if_pos hc]
    simp only [Finset.not_mem_empty, false_iff]
    rintro ⟨hT, _⟩
    unfold Grid.trueCell at hT
    simp only [Bool.and_eq_true] at hT
    have hcT : g.cell sx sy = true := by simpa using hT.2
    rw [hc] at hcT
    exact Bool.noConfusion hcT
  · have hcell : g.cell sx sy = true := by
      cases hcv : g.cell sx sy
      · exact absurd hcv hc
      · rfl
    rw [if_neg hc]
    have hstart : g.trueCell ((sx : Int), (sy : Int)) = true := by
      unfold Grid.trueCell Grid.inBounds
      simp only [Bool.and_eq_true, decide_eq_true_eq]
      refine ⟨⟨⟨⟨?_, ?_⟩, ?_⟩, ?_⟩, ?_⟩
      · exact Int.natCast_nonneg sx
      · exact_mod_cast hx
      · exact Int.natCast_nonneg sy
      · exact_mod_cast hy
      · simpa using hcell
    have hfuel : ffMeasure (intBox g.width g.height) 4
        [((sx : Int), (sy : Int))] ∅ ≤ 5 * (g.width * g.height) + 2 := by
      rw [ffMeasure_start, intBox_card]
      omega
    exact (ffLoop_run_iff g.trueCell nbrs4 false (intBox g.width g.height) 4
      (trueCell_mem_intBox g) nbrs4_len _ hstart _ hfuel v).trans
      (ffReach4_iff g _ v)

/-- Everything a component contains is absorbed under 4-reach. -/
theorem isComponent_reach_closed {g : Grid} {C : Finset Cell}
    (hC : isComponent g C) {p q : Cell} (hp : p ∈ C) (h : reach4 g p q) :
    q ∈ C :=
  reach4_closed_subset g C (fun a ha b hab htb => hC.2.2.2 a ha b hab htb)
    hp h.2

/-- Two components sharing a cell are equal. -/
theorem isComponent_unique {g : Grid} {C D : Finset Cell}
    (hC : isComponent g C) (hD : isComponent g D)
    (hne : (C ∩ D).Nonempty) : C = D := by
  obtain ⟨p, hp⟩ := hne
  rw [Finset.mem_inter] at hp
  apply Finset.Subset.antisymm
  · intro q hq
    exact isComponent_reach_closed hD hp.2 (hC.2.2.1 p hp.1 q hq)
  · intro q hq
    exact isComponent_reach_closed hC hp.1 (hD.2.2.1 p hp.2 q hq)

/-- Introduction form for the flood-fill guard at in-bounds `Nat` coordinates. -/
theorem trueCell_intro (g : Grid) (x y : Nat) (hx : x < g.width)
    (hy : y < g.height) (hc : g.cell x y = true) :
    g.trueCell ((x : Int), (y : Int)) = true := by
  unfold Grid.trueCell Grid.inBounds
  simp only [Bool.and_eq_true, decide_eq_true_eq]
  refine ⟨⟨⟨⟨?_, ?_⟩, ?_⟩, ?_⟩, ?_⟩
  · exact Int.natCast_nonneg x
  · exact_mod_cast hx
  · exact Int.natCast_nonneg y
  · exact_mod_cast hy
  · simpa using hc

/-- Elimination form for the flood-fill guard: the coordinates are in-bounds
naturals and the underlying grid value is true. -/
theorem trueCell_elim {g : Grid} {p : Cell} (hp : g.trueCell p = true) :
    p.1.toNat < g.width ∧ p.2.toNat < g.height ∧
      g.cell p.1.toNat p.2.toNat = true ∧
      p = ((p.1.toNat : Int), (p.2.toNat : Int)) := by
  unfold Grid.trueCell Grid.inBounds at hp
  simp only [Bool.and_eq_true, decide_eq_true_eq] at hp
  obtain ⟨⟨⟨⟨h1, h2⟩, h3⟩, h4⟩, h5⟩ := hp
  refine ⟨by omega, by omega, h5, ?_⟩
  rw [Prod.ext_iff]
  constructor <;> simp <;> omega

/-- The flood fill from an in-bounds true start cell yields a 4-connected
component of the grid. -/
theorem ffcc_isComponent (g : Grid) (sx sy : Nat) (hx : sx < g.width)
    (hy : sy < g.height) (hc : g.cell sx sy = true) :
    isComponent g (flood_fill_connected_component g sx sy) := by
  have hspec := flood_fill_connected_component_spec g sx sy hx hy
  have hsT : g.trueCell ((sx : Int), (sy : Int)) = true :=
    trueCell_intro g sx sy hx hy hc
  refine ⟨⟨((sx : Int), (sy : Int)),
    (hspec _).2 ⟨hsT, Relation.ReflTransGen.refl⟩⟩, ?_, ?_, ?_⟩
  · intro p hp
    exact reach4_trueCell_right ((hspec p).1 hp)
  · intro p hp q hq
    exact reach4_trans (reach4_symm ((hspec p).1 hp)) ((hspec q).1 hq)
  · intro p hp q hadj htq
    have hr := (hspec p).1 hp
    exact (hspec q).2 ⟨hr.1, hr.2.tail ⟨reach4_trueCell_right hr, htq, hadj⟩⟩

/-- The start cell belongs to its own flood-fill component. -/
theorem ffcc_root_mem (g : Grid) (sx sy : Nat) (hx : sx < g.width)
    (hy : sy < g.height) (hc : g.cell sx sy = true) :
    ((sx : Int), (sy : Int)) ∈ flood_fill_connected_component g sx sy :=
  (flood_fill_connected_component_spec g sx sy hx hy _).2
    ⟨trueCell_intro g sx sy hx hy hc, Relation.ReflTransGen.refl⟩

/-- Every scanned coordinate is in bounds. -/
theorem scanCells_bounds {w h : Nat} :
    ∀ c ∈ scanCells w h, c.1 < w ∧ c.2 < h := by
  intro c hc
  simp only [scanCells, List.mem_flatMap, List.mem_map, List.mem_range] at hc
  obtain ⟨y, hy, x, hx, rfl⟩ := hc
  exact ⟨hx, hy⟩

/-- Every in-bounds coordinate is scanned. -/
theorem scanCells_mem {w h : Nat} (x y : Nat) (hx : x < w) (hy : y < h) :
    (x, y) ∈ scanCells w h := by
  simp only [scanCells, List.mem_flatMap, List.mem_map, List.mem_range]
  exact ⟨y, hy, x, hx, rfl⟩

/-- The scan visits cells in strictly increasing row-major index order. -/
theorem scanCells_sorted {w h : Nat} :
    List.Pairwise (fun a b : Nat × Nat =>
      a.2 * w + a.1 < b.2 * w + b.1) (scanCells w h) := by
  unfold scanCells
  rw [List.flatMap_def, List.pairwise_flatten]
  constructor
  · intro l hl
    simp only [List.mem_map, List.mem_range] at hl
    obtain ⟨y, hy, rfl⟩ := hl
    rw [List.pairwise_map]
    exact (List.pairwise_lt_range w).imp (fun hab => by
      show y * w + _ < y * w + _
      omega)
  · rw [List.pairwise_map]
    refine (List.pairwise_lt_range h).imp ?_
    intro y1 y2 h12 a ha b hb
    simp only [List.mem_map, List.mem_range] at ha hb
    obtain ⟨x1, hx1, rfl⟩ := ha
    obtain ⟨x2, hx2, rfl⟩ := hb
    show y1 * w + x1 < y2 * w + x2
    have h1 : (y1 + 1) * w ≤ y2 * w := Nat.mul_le_mul_right w (by omega)
    have h2 : y1 * w + x1 < (y1 + 1) * w := by
      rw [Nat.succ_mul]
      omega
    omega

/-- Every entry of the component scan is the flood fill of an unvisited true
in-bounds root taken from the remaining scan list. -/
theorem scan_components_mem (g : Grid) (cells : List (Nat × Nat)) :
    ∀ (visited : Finset Cell),
      (∀ c ∈ cells, c.1 < g.width ∧ c.2 < g.height) →
      ∀ C ∈ scanComponents g cells visited,
        ∃ x y, (x, y) ∈ cells ∧ x < g.width ∧ y < g.height ∧
          g.cell x y = true ∧ ((x : Int), (y : Int)) ∉ visited ∧
          C = flood_fill_connected_component g x y := by
  induction cells with
  | nil =>
    intro visited _ C hC
    simp [scanComponents] at hC
  | cons c rest ih =>
    obtain ⟨x, y⟩ := c
    intro visited hb C hC
    have hbx := hb (x, y) (List.mem_cons_self _ _)
    simp only [scanComponents] at hC
    by_cases hcond : g.cell x y = true ∧ ((x : Int), (y : Int)) ∉ visited
    · rw [if_pos hcond] at hC
      rcases List.mem_cons.1 hC with rfl | hC
      · exact ⟨x, y, List.mem_cons_self _ _, hbx.1, hbx.2, hcond.1, hcond.2, rfl⟩
      · obtain ⟨x', y', hmem, hw, hh, hcell, hnv, hEq⟩ :=
          ih _ (fun c hc => hb c (List.mem_cons_of_mem _ hc)) C hC
        exact ⟨x', y', List.mem_cons_of_mem _ hmem, hw, hh, hcell,
          fun hv => hnv (Finset.mem_union_left _ hv), hEq⟩
    · rw [if_neg hcond] at hC
      obtain ⟨x', y', hmem, hw, hh, hcell, hnv, hEq⟩ :=
        ih _ (fun c hc => hb c (List.mem_cons_of_mem _ hc)) C hC
      exact ⟨x', y', List.mem_cons_of_mem _ hmem, hw, hh, hcell, hnv, hEq⟩

/-- Coverage: every true cell is already visited or lands in some component
of the scan, provided the remaining scan list still contains every true
unvisited cell. -/
theorem scan_covers (g : Grid) (cells : List (Nat × Nat)) :
    ∀ (visited : Finset Cell),
      (∀ c ∈ cells, c.1 < g.width ∧ c.2 < g.height) →
      (∀ p : Cell, g.trueCell p = true → p ∉ visited →
        (p.1.toNat, p.2.toNat) ∈ cells) →
      ∀ p : Cell, g.trueCell p = true →
        p ∈ visited ∨ ∃ C ∈ scanComponents g cells visited, p ∈ C := by
  induction cells with
  | nil =>
    intro visited _ hcov p hp
    by_cases hv : p ∈ visited
    · exact Or.inl hv
    · exact absurd (hcov p hp hv) (List.not_mem_nil _)
  | cons c rest ih =>
    obtain ⟨x, y⟩ := c
    intro visited hb hcov p hp
    have hbx := hb (x, y) (List.mem_cons_self _ _)
    simp only [scanComponents]
    by_cases hcond : g.cell x y = true ∧ ((x : Int), (y : Int)) ∉ visited
    · rw [if_pos hcond]
      set C0 := flood_fill_connected_component g x y with hC0def
      have hroot : ((x : Int), (y : Int)) ∈ C0 :=
        ffcc_root_mem g x y hbx.1 hbx.2 hcond.1
      have hcov' : ∀ q : Cell, g.trueCell q = true → q ∉ visited ∪ C0 →
          (q.1.toNat, q.2.toNat) ∈ rest := by
        intro q hq hqv
        have hq1 : q ∉ visited := fun hv => hqv (Finset.mem_union_left _ hv)
        rcases List.mem_cons.1 (hcov q hq hq1) with heq | hmem
        · exfalso
          have hqe := (trueCell_elim hq).2.2.2
          rw [Prod.mk.injEq] at heq
          have hqq : q = ((x : Int), (y : Int)) := by
            rw [hqe, heq.1, heq.2]
          exact hqv (by rw [hqq]; exact Finset.mem_union_right _ hroot)
        · exact hmem
      rcases ih (visited ∪ C0) (fun c hc => hb c (List.mem_cons_of_mem _ hc))
          hcov' p hp with hv | ⟨C, hCmem, hpC⟩
      · rcases Finset.mem_union.1 hv with hv | hv
        · exact Or.inl hv
        · exact Or.inr ⟨C0, List.mem_cons_self _ _, hv⟩
      · exact Or.inr ⟨C, List.mem_cons_of_mem _ hCmem, hpC⟩
    · rw [if_neg hcond]
      have hcov' : ∀ q : Cell, g.trueCell q = true → q ∉ visited →
          (q.1.toNat, q.2.toNat) ∈ rest := by
        intro q hq hqv
        rcases List.mem_cons.1 (hcov q hq hqv) with heq | hmem
        · exfalso
          have hqe := (trueCell_elim hq).2.2
          rw [Prod.mk.injEq] at heq
          have hqq : q = ((x : Int), (y : Int)) := by
            rw [hqe.2, heq.1, heq.2]
          have hcx : g.cell x y = true := by
            have h3 := hqe.1
            rwa [heq.1, heq.2] at h3
          have hrootv : ((x : Int), (y : Int)) ∈ visited := by
            by_contra hnv
            exact hcond ⟨hcx, hnv⟩
          exact hqv (by rw [hqq]; exact hrootv)
        · exact hmem
      exact ih visited (fun c hc => hb c (List.mem_cons_of_mem _ hc)) hcov' p hp

/-- Scanned components avoid the incoming visited set and are pairwise
disjoint, as long as the incoming visited set is closed under reachability
(it is a union of earlier components). -/
theorem scan_disjoint (g : Grid) (cells : List (Nat × Nat)) :
    ∀ (visited : Finset Cell),
      (∀ c ∈ cells, c.1 < g.width ∧ c.2 < g.height) →
      (∀ p ∈ visited, ∀ q, reach4 g p q → q ∈ visited) →
      (∀ C ∈ scanComponents g cells visited, ∀ p ∈ C, p ∉ visited) ∧
        List.Pairwise (fun C D => ∀ p ∈ C, p ∉ D)
          (scanComponents g cells visited) := by
  induction cells with
  | nil =>
    intro visited _ _
    simp [scanComponents]
  | cons c rest ih =>
    obtain ⟨x, y⟩ := c
    intro visited hb hvis
    have hbx := hb (x, y) (List.mem_cons_self _ _)
    simp only [scanComponents]
    by_cases hcond : g.cell x y = true ∧ ((x : Int), (y : Int)) ∉ visited
    · rw [if_pos hcond]
      set C0 := flood_fill_connected_component g x y with hC0def
      have hcomp : isComponent g C0 := ffcc_isComponent g x y hbx.1 hbx.2 hcond.1
      have hspec := flood_fill_connected_component_spec g x y hbx.1 hbx.2
      have hC0vis : ∀ p ∈ C0, p ∉ visited := by
        intro p hp hpv
        exact hcond.2 (hvis p hpv _ (reach4_symm ((hspec p).1 hp)))
      have hvis' : ∀ p ∈ visited ∪ C0, ∀ q, reach4 g p q →
          q ∈ visited ∪ C0 := by
        intro p hp q hr
        rcases Finset.mem_union.1 hp with hp | hp
        · exact Finset.mem_union_left _ (hvis p hp q hr)
        · exact Finset.mem_union_right _ (isComponent_reach_closed hcomp hp hr)
      obtain ⟨ih1, ih2⟩ :=
        ih (visited ∪ C0) (fun c hc => hb c (List.mem_cons_of_mem _ hc)) hvis'
      constructor
      · intro C hC p hp
        rcases List.mem_cons.1 hC with rfl | hC
        · exact hC0vis p hp
        · exact fun hpv => ih1 C hC p hp (Finset.mem_union_left _ hpv)
      · rw [List.pairwise_cons]
        refine ⟨?_, ih2⟩
        intro D hD p hp hpD
        exact ih1 D hD p hpD (Finset.mem_union_right _ hp)
    · rw [if_neg hcond]
      exact ih visited (fun c hc => hb c (List.mem_cons_of_mem _ hc)) hvis

/-- Row-major indices identify true cells uniquely. -/
theorem rmIdx_inj (g : Grid) {p q : Cell} (hp : g.trueCell p = true)
    (hq : g.trueCell q = true) (h : rmIdx g p = rmIdx g q) : p = q := by
  obtain ⟨hpx, hpy, _, hpe⟩ := trueCell_elim hp
  obtain ⟨hqx, hqy, _, hqe⟩ := trueCell_elim hq
  unfold rmIdx at h
  have hy : p.2.toNat = q.2.toNat := by
    by_contra hne
    rcases Nat.lt_or_ge p.2.toNat q.2.toNat with hlt | hge
    · have hmul := Nat.mul_le_mul_right g.width (Nat.succ_le_of_lt hlt)
      rw [Nat.succ_mul] at hmul
      omega
    · have hlt : q.2.toNat < p.2.toNat := by omega
      have hmul := Nat.mul_le_mul_right g.width (Nat.succ_le_of_lt hlt)
      rw [Nat.succ_mul] at hmul
      omega
  have hx : p.1.toNat = q.1.toNat := by
    rw [hy] at h
    omega
  rw [hpe, hqe, hx, hy]

/-- The first-scan position is a lower bound on members' scan indices. -/
theorem firstScan_le {g : Grid} {C : Finset Cell} {p : Cell} (hp : p ∈ C) :
    firstScan g C ≤ WithTop.some (rmIdx g p) :=
  Finset.min_le (Finset.mem_image_of_mem _ hp)

/-- A strict lower bound on all members' scan indices bounds the first-scan
position strictly. -/
theorem lt_firstScan {g : Grid} {C : Finset Cell} {k : Nat}
    (h : ∀ p ∈ C, k < rmIdx g p) : WithTop.some k < firstScan g C := by
  rw [firstScan, Finset.min_eq_inf_withTop]
  refine (Finset.lt_inf_iff (WithTop.coe_lt_top k)).2 ?_
  intro b hb
  obtain ⟨p, hp, rfl⟩ := Finset.mem_image.1 hb
  exact WithTop.coe_lt_coe.2 (h p hp)

/-- The first-scan position of a nonempty set is attained by a member. -/
theorem firstScan_attained (g : Grid) {C : Finset Cell} (hC : C.Nonempty) :
    ∃ p ∈ C, firstScan g C = WithTop.some (rmIdx g p) := by
  have himg : (C.image (rmIdx g)).Nonempty := hC.image _
  obtain ⟨p, hp, hpe⟩ := Finset.mem_image.1 (Finset.min'_mem _ himg)
  refine ⟨p, hp, ?_⟩
  rw [firstScan, ← Finset.coe_min' himg, hpe]

/-- Components are produced in strictly increasing first-scan order: each
newly scanned component is rooted at the earliest remaining cell, and all
later components live strictly beyond that root in scan order. -/
theorem scan_sorted (g : Grid) (cells : List (Nat × Nat)) :
    ∀ (visited : Finset Cell),
      (∀ c ∈ cells, c.1 < g.width ∧ c.2 < g.height) →
      List.Pairwise (fun a b : Nat × Nat =>
        a.2 * g.width + a.1 < b.2 * g.width + b.1) cells →
      (∀ p ∈ visited, ∀ q, reach4 g p q → q ∈ visited) →
      (∀ p : Cell, g.trueCell p = true → p ∉ visited →
        (p.1.toNat, p.2.toNat) ∈ cells) →
      List.Pairwise (fun C D => firstScan g C < firstScan g D)
        (scanComponents g cells visited) := by
  induction cells with
  | nil =>
    intro visited _ _ _ _
    simp [scanComponents]
  | cons c rest ih =>
    obtain ⟨x, y⟩ := c
    intro visited hb hsort hvis hcov
    have hbx := hb (x, y) (List.mem_cons_self _ _)
    rw [List.pairwise_cons] at hsort
    simp only [scanComponents]
    by_cases hcond : g.cell x y = true ∧ ((x : Int), (y : Int)) ∉ visited
    · rw [if_pos hcond]
      set C0 := flood_fill_connected_component g x y with hC0def
      have hcomp : isComponent g C0 := ffcc_isComponent g x y hbx.1 hbx.2 hcond.1
      have hroot : ((x : Int), (y : Int)) ∈ C0 :=
        ffcc_root_mem g x y hbx.1 hbx.2 hcond.1
      have hb' : ∀ c ∈ rest, c.1 < g.width ∧ c.2 < g.height :=
        fun c hc => hb c (List.mem_cons_of_mem _ hc)
      have hvis' : ∀ p ∈ visited ∪ C0, ∀ q, reach4 g p q →
          q ∈ visited ∪ C0 := by
        intro p hp q hr
        rcases Finset.mem_union.1 hp with hp | hp
        · exact Finset.mem_union_left _ (hvis p hp q hr)
        · exact Finset.mem_union_right _ (isComponent_reach_closed hcomp hp hr)
      have hcov' : ∀ q : Cell, g.trueCell q = true → q ∉ visited ∪ C0 →
          (q.1.toNat, q.2.toNat) ∈ rest := by
        intro q hq hqv
        have hq1 : q ∉ visited := fun hv => hqv (Finset.mem_union_left _ hv)
        rcases List.mem_cons.1 (hcov q hq hq1) with heq | hmem
        · exfalso
          have hqe := (trueCell_elim hq).2.2.2
          rw [Prod.mk.injEq] at heq
          have hqq : q = ((x : Int), (y : Int)) := by
            rw [hqe, heq.1, heq.2]
          exact hqv (by rw [hqq]; exact Finset.mem_union_right _ hroot)
        · exact hmem
      rw [List.pairwise_cons]
      constructor
      · intro D hD
        have hDdisj := (scan_disjoint g rest (visited ∪ C0) hb' hvis').1 D hD
        obtain ⟨x', y', _, hw', hh', _, _, rfl⟩ :=
          scan_components_mem g rest (visited ∪ C0) hb' D hD
        have hmem_gt : ∀ p ∈ flood_fill_connected_component g x' y',
            y * g.width + x < rmIdx g p := by
          intro p hp
          have hpt : g.trueCell p = true :=
            reach4_trueCell_right
              ((flood_fill_connected_component_spec g x' y' hw' hh' p).1 hp)
          have hrest := hcov' p hpt (hDdisj p hp)
          exact hsort.1 _ hrest
        exact lt_of_le_of_lt (firstScan_le hroot) (lt_firstScan hmem_gt)
      · exact ih (visited ∪ C0) hb' hsort.2 hvis' hcov'
    · rw [if_neg hcond]
      have hb' : ∀ c ∈ rest, c.1 < g.width ∧ c.2 < g.height :=
        fun c hc => hb c (List.mem_cons_of_mem _ hc)
      have hcov' : ∀ q : Cell, g.trueCell q = true → q ∉ visited →
          (q.1.toNat, q.2.toNat) ∈ rest := by
        intro q hq hqv
        rcases List.mem_cons.1 (hcov q hq hqv) with heq | hmem
        · exfalso
          have hqe := (trueCell_elim hq).2.2
          rw [Prod.mk.injEq] at heq
          have hqq : q = ((x : Int), (y : Int)) := by
            rw [hqe.2, heq.1, heq.2]
          have hcx : g.cell x y = true := by
            have h3 := hqe.1
            rwa [heq.1, heq.2] at h3
          have hrootv : ((x : Int), (y : Int)) ∈ visited := by
            by_contra hnv
            exact hcond ⟨hcx, hnv⟩
          exact hqv (by rw [hqq]; exact hrootv)
        · exact hmem
      exact ih visited hb' hsort.2 hvis hcov'

/-- Python's `max(components, key=len)` keeps the first maximum: the folded
result splits the list into a strictly smaller prefix and a no-larger
suffix. -/
theorem foldl_max_split :
    ∀ (l : List (Finset Cell)) (acc : Finset Cell),
      ∃ pre post,
        acc :: l = pre ++
          (l.foldl (fun a d => if a.card < d.card then d else a) acc) :: post ∧
        (∀ D ∈ pre, D.card <
          (l.foldl (fun a d => if a.card < d.card then d else a) acc).card) ∧
        (∀ D ∈ post, D.card ≤
          (l.foldl (fun a d => if a.card < d.card then d else a) acc).card) := by
  intro l
  induction l with
  | nil =>
    intro acc
    exact ⟨[], [], rfl, by simp, by simp⟩
  | cons d rest ih =>
    intro acc
    rw [List.foldl_cons]
    by_cases hlt : acc.card < d.card
    · rw [if_pos hlt]
      obtain ⟨pre', post', heq, hpre', hpost'⟩ := ih d
      refine ⟨acc :: pre', post', ?_, ?_, hpost'⟩
      · rw [List.cons_append, ← heq]
      · intro D hD
        rcases List.mem_cons.1 hD with rfl | hD
        · have hd : d.card ≤
              (rest.foldl (fun a d => if a.card < d.card then d else a) d).card := by
            rcases pre' with _ | ⟨a, pre''⟩
            · rw [List.nil_append, List.cons.injEq] at heq
              exact le_of_eq (congrArg Finset.card heq.1)
            · rw [List.cons_append, List.cons.injEq] at heq
              exact le_of_lt (heq.1 ▸ hpre' a (List.mem_cons_self _ _))
          omega
        · exact hpre' D hD
    · rw [if_neg hlt]
      obtain ⟨pre', post', heq, hpre', hpost'⟩ := ih acc
      rcases pre' with _ | ⟨a, pre''⟩
      · rw [List.nil_append, List.cons.injEq] at heq
        refine ⟨[], d :: post', ?_, by simp, ?_⟩
        · rw [List.nil_append, ← heq.1, ← heq.2]
        · intro D hD
          rcases List.mem_cons.1 hD with rfl | hD
          · rw [← heq.1]
            omega
          · exact hpost' D hD
      · rw [List.cons_append, List.cons.injEq] at heq
        refine ⟨acc :: d :: pre'', post', ?_, ?_, hpost'⟩
        · conv_lhs => rw [heq.2]
          rw [List.cons_append, List.cons_append]
        · intro D hD
          rcases List.mem_cons.1 hD with rfl | hD
          · have ha := hpre' a (List.mem_cons_self _ _)
            have hDa := congrArg Finset.card heq.1
            omega
          · rcases List.mem_cons.1 hD with rfl | hD
            · have ha := hpre' a (List.mem_cons_self _ _)
              have hac : acc.card = a.card := by rw [heq.1]
              omega
            · exact hpre' D (List.mem_cons_of_mem _ hD)

/-- Initial coverage: with nothing visited, every true cell appears in the
full row-major scan list. -/
theorem scan_initial_cov (g : Grid) :
    ∀ p : Cell, g.trueCell p = true → p ∉ (∅ : Finset Cell) →
      (p.1.toNat, p.2.toNat) ∈ scanCells g.width g.height := by
  intro p hp _
  obtain ⟨h1, h2, _, _⟩ := trueCell_elim hp
  exact scanCells_mem _ _ h1 h2

/-- Members of the full scan are components. -/
theorem scan_member_isComponent (g : Grid) {C : Finset Cell}
    (hC : C ∈ scanComponents g (scanCells g.width g.height) ∅) :
    isComponent g C := by
  obtain ⟨x, y, _, hw, hh, hc, _, rfl⟩ :=
    scan_components_mem g _ ∅ scanCells_bounds C hC
  exact ffcc_isComponent g x y hw hh hc

/-- Enumeration completeness: every component of the grid appears in the full
scan. -/
theorem component_mem_scan (g : Grid) {D : Finset Cell} (hD : isComponent g D) :
    D ∈ scanComponents g (scanCells g.width g.height) ∅ := by
  obtain ⟨p, hp⟩ := hD.1
  have hpt := hD.2.1 p hp
  rcases scan_covers g _ ∅ scanCells_bounds (scan_initial_cov g) p hpt with
    hv | ⟨C, hC, hpC⟩
  · exact absurd hv (Finset.not_mem_empty p)
  · have hCc := scan_member_isComponent g hC
    have heq : C = D :=
      isComponent_unique hCc hD ⟨p, Finset.mem_inter.2 ⟨hpC, hp⟩⟩
    exact heq ▸ hC

/-- `find_largest_connected_component` either returns the empty set (exactly
when the grid has no true in-bounds cell) or the specification's chosen
component: a maximum-cardinality component, first in row-major scan order
among those of maximal size. -/
theorem find_largest_spec (g : Grid) :
    (find_largest_connected_component g = ∅ ∧
      ∀ p : Cell, ¬ g.trueCell p = true) ∨
    chosenComponent g (find_largest_connected_component g) := by
  rcases hsc : scanComponents g (scanCells g.width g.height) ∅ with _ | ⟨c, restl⟩
  · left
    have hfl : find_largest_connected_component g = ∅ := by
      unfold find_largest_connected_component
      rw [hsc]
    refine ⟨hfl, ?_⟩
    intro p hp
    rcases scan_covers g _ ∅ scanCells_bounds (scan_initial_cov g) p hp with
      hv | ⟨C, hC, _⟩
    · exact Finset.not_mem_empty p hv
    · rw [hsc] at hC
      exact List.not_mem_nil _ hC
  · right
    have hfl : find_largest_connected_component g =
        restl.foldl (fun a d => if a.card < d.card then d else a) c := by
      unfold find_largest_connected_component
      rw [hsc]
    rw [hfl]
    obtain ⟨pre, post, heq, hpre, hpost⟩ := foldl_max_split restl c
    have hLmem : restl.foldl (fun a d => if a.card < d.card then d else a) c ∈
        scanComponents g (scanCells g.width g.height) ∅ := by
      rw [hsc, heq]
      exact List.mem_append_right _ (List.mem_cons_self _ _)
    have hLcomp := scan_member_isComponent g hLmem
    have hsorted := scan_sorted g _ ∅ scanCells_bounds scanCells_sorted
      (fun p hp => absurd hp (Finset.not_mem_empty p)) (scan_initial_cov g)
    rw [hsc, heq] at hsorted
    unfold chosenComponent
    refine ⟨hLcomp, ?_, ?_⟩
    · intro D hD
      have hDmem := component_mem_scan g hD
      rw [hsc, heq] at hDmem
      rcases List.mem_append.1 hDmem with hDpre | hDrp
      · exact le_of_lt (hpre D hDpre)
      · rcases List.mem_cons.1 hDrp with heq2 | hDpost
        · rw [heq2]
        · exact hpost D hDpost
    · intro D hD hcard
      have hDmem := component_mem_scan g hD
      rw [hsc, heq] at hDmem
      rcases List.mem_append.1 hDmem with hDpre | hDrp
      · have := hpre D hDpre
        omega
      · rcases List.mem_cons.1 hDrp with heq2 | hDpost
        · rw [heq2]
        · have hp2 := (List.pairwise_append.1 hsorted).2.1
          rw [List.pairwise_cons] at hp2
          exact le_of_lt (hp2.1 D hDpost)

/-- The specification's chosen component is unique. -/
theorem chosenComponent_unique (g : Grid) {C D : Finset Cell}
    (hC : chosenComponent g C) (hD : chosenComponent g D) : C = D := by
  have hcard : C.card = D.card :=
    le_antisymm (hD.2.1 C hC.1) (hC.2.1 D hD.1)
  have hfs : firstScan g C = firstScan g D :=
    le_antisymm (hC.2.2 D hD.1 hcard.symm) (hD.2.2 C hC.1 hcard)
  obtain ⟨p, hpC, hpe⟩ := firstScan_attained g hC.1.1
  obtain ⟨q, hqD, hqe⟩ := firstScan_attained g hD.1.1
  have hsome : WithTop.some (rmIdx g p) = WithTop.some (rmIdx g q) := by
    rw [← hpe, ← hqe, hfs]
  have hrm : rmIdx g p = rmIdx g q := by
    exact WithTop.coe_eq_coe.1 hsome
  have hpq : p = q := rmIdx_inj g (hC.1.2.1 p hpC) (hD.1.2.1 q hqD) hrm
  exact isComponent_unique hC.1 hD.1 ⟨p, Finset.mem_inter.2 ⟨hpC, hpq ▸ hqD⟩⟩

/-- The pruning pass keeps an in-bounds cell true exactly when it was true
and lies in the specification's chosen component. -/
theorem prune_cell_iff (g : Grid) (x y : Nat) (hx : x < g.width)
    (hy : y < g.height) :
    (pruneGrid g).cell x y = true ↔
      g.cell x y = true ∧
        ∃ C, chosenComponent g C ∧ ((x : Int), (y : Int)) ∈ C := by
  show (if x < g.width ∧ y < g.height then
      g.cell x y &&
        decide (((x : Int), (y : Int)) ∈ find_largest_connected_component g)
    else g.cell x y) = true ↔ _
  rw [if_pos ⟨hx, hy⟩, Bool.and_eq_true, decide_eq_true_eq]
  constructor
  · rintro ⟨hc, hm⟩
    rcases find_largest_spec g with ⟨he, _⟩ | hch
    · rw [he] at hm
      exact absurd hm (Finset.not_mem_empty _)
    · exact ⟨hc, _, hch, hm⟩
  · rintro ⟨hc, C, hch, hmC⟩
    refine ⟨hc, ?_⟩
    rcases find_largest_spec g with ⟨_, hnt⟩ | hch'
    · exact absurd (trueCell_intro g x y hx hy hc) (hnt _)
    · rw [chosenComponent_unique g hch hch'] at hmC
      exact hmC

/-- The true cells of the pruned grid are exactly the kept component. -/
theorem trueCell_prune (g : Grid) (p : Cell) :
    (pruneGrid g).trueCell p = true ↔
      p ∈ find_largest_connected_component g := by
  constructor
  · intro hp
    obtain ⟨h1, h2, h3, h4⟩ := trueCell_elim hp
    have h3' : (if p.1.toNat < g.width ∧ p.2.toNat < g.height then
        g.cell p.1.toNat p.2.toNat &&
          decide (((p.1.toNat : Int), (p.2.toNat : Int)) ∈
            find_largest_connected_component g)
      else g.cell p.1.toNat p.2.toNat) = true := h3
    rw [if_pos ⟨h1, h2⟩, Bool.and_eq_true, decide_eq_true_eq] at h3'
    rw [h4]
    exact h3'.2
  · intro hm
    have hch : chosenComponent g (find_largest_connected_component g) := by
      rcases find_largest_spec g with ⟨he, _⟩ | h
      · rw [he] at hm
        exact absurd hm (Finset.not_mem_empty p)
      · exact h
    have hpt : g.trueCell p = true := hch.1.2.1 p hm
    obtain ⟨h1, h2, h3, h4⟩ := trueCell_elim hpt
    have hc' : (pruneGrid g).cell p.1.toNat p.2.toNat = true := by
      show (if p.1.toNat < g.width ∧ p.2.toNat < g.height then
          g.cell p.1.toNat p.2.toNat &&
            decide (((p.1.toNat : Int), (p.2.toNat : Int)) ∈
              find_largest_connected_component g)
        else g.cell p.1.toNat p.2.toNat) = true
      rw [if_pos ⟨h1, h2⟩, h3]
      simp only [Bool.true_and, decide_eq_true_eq]
      rw [← h4]
      exact hm
    rw [h4]
    exact trueCell_intro (pruneGrid g) p.1.toNat p.2.toNat h1 h2 hc'

/-- When nonempty, the kept component is a component of the pruned grid. -/
theorem prune_isComponent (g : Grid)
    (hne : (find_largest_connected_component g).Nonempty) :
    isComponent (pruneGrid g) (find_largest_connected_component g) := by
  have hch : chosenComponent g (find_largest_connected_component g) := by
    rcases find_largest_spec g with ⟨he, _⟩ | h
    · rw [he] at hne
      exact absurd hne (by simp)
    · exact h
  have hcomp := hch.1
  refine ⟨hne, ?_, ?_, ?_⟩
  · intro p hp
    exact (trueCell_prune g p).2 hp
  · intro p hp q hq
    have hr := hcomp.2.2.1 p hp q hq
    refine ⟨(trueCell_prune g p).2 hp, ?_⟩
    have key : ∀ v, Relation.ReflTransGen (step4 g) p v →
        v ∈ find_largest_connected_component g ∧
          Relation.ReflTransGen (step4 (pruneGrid g)) p v := by
      intro v hv
      induction hv with
      | refl => exact ⟨hp, Relation.ReflTransGen.refl⟩
      | tail hab hbc ih =>
        have hbL := ih.1
        have hcL := hcomp.2.2.2 _ hbL _ hbc.2.2 hbc.2.1
        exact ⟨hcL, ih.2.tail
          ⟨(trueCell_prune g _).2 hbL, (trueCell_prune g _).2 hcL, hbc.2.2⟩⟩
    exact (key q hr.2).2
  · intro p hp q hadj htq
    exact (trueCell_prune g q).1 htq

/-- Pruning does not change the kept component: the largest component of the
pruned grid is the largest component of the original grid. -/
theorem find_largest_prune (g : Grid) :
    find_largest_connected_component (pruneGrid g) =
      find_largest_connected_component g := by
  rcases find_largest_spec g with ⟨he, hnt⟩ | hch
  · rw [he]
    rcases find_largest_spec (pruneGrid g) with ⟨he', _⟩ | hch'
    · rw [he']
    · exfalso
      obtain ⟨p, hp⟩ := hch'.1.1
      have hm := (trueCell_prune g p).1 (hch'.1.2.1 p hp)
      rw [he] at hm
      exact Finset.not_mem_empty p hm
  · have hne : (find_largest_connected_component g).Nonempty := hch.1.1
    have hpc := prune_isComponent g hne
    rcases find_largest_spec (pruneGrid g) with ⟨he', hnt'⟩ | hch'
    · exfalso
      obtain ⟨p, hp⟩ := hne
      exact hnt' p ((trueCell_prune g p).2 hp)
    · have hcomp' := hch'.1
      obtain ⟨p, hp⟩ := hcomp'.1
      have hpL : p ∈ find_largest_connected_component g :=
        (trueCell_prune g p).1 (hcomp'.2.1 p hp)
      exact isComponent_unique hcomp' hpc ⟨p, Finset.mem_inter.2 ⟨hp, hpL⟩⟩

/-- Cellwise idempotence of the pruning pass. -/
theorem pruneGrid_idem (g : Grid) (x y : Nat) :
    (pruneGrid (pruneGrid g)).cell x y = (pruneGrid g).cell x y := by
  show (if x < g.width ∧ y < g.height then
      (pruneGrid g).cell x y &&
        decide (((x : Int), (y : Int)) ∈
          find_largest_connected_component (pruneGrid g))
    else (pruneGrid g).cell x y) = (pruneGrid g).cell x y
  by_cases hb : x < g.width ∧ y < g.height
  · rw [if_pos hb, find_largest_prune]
    cases hc : (pruneGrid g).cell x y
    · simp
    · have ht : (pruneGrid g).trueCell ((x : Int), (y : Int)) = true :=
        trueCell_intro (pruneGrid g) x y hb.1 hb.2 hc
      have hm := (trueCell_prune g _).1 ht
      simp [hm]
  · rw [if_neg hb]

/-- Any two true cells of the pruned grid are mutually 4-reachable inside it. -/
theorem prune_reach (g : Grid) {p q : Cell}
    (hp : (pruneGrid g).trueCell p = true)
    (hq : (pruneGrid g).trueCell q = true) :
    reach4 (pruneGrid g) p q := by
  have hpL := (trueCell_prune g p).1 hp
  have hqL := (trueCell_prune g q).1 hq
  exact (prune_isComponent g ⟨p, hpL⟩).2.2.1 p hpL q hqL

/-- Introduction form for the cluster guard at in-bounds coordinates. -/
theorem nonBlackAt_intro (img : Image) (x y : Nat) (hx : x < img.width)
    (hy : y < img.height) (hc : is_non_black_pixel (img.pixel x y) = true) :
    img.nonBlackAt ((x : Int), (y : Int)) = true := by
  unfold Image.nonBlackAt
  simp only [Bool.and_eq_true, decide_eq_true_eq]
  refine ⟨⟨⟨⟨?_, ?_⟩, ?_⟩, ?_⟩, ?_⟩
  · exact Int.natCast_nonneg x
  · exact_mod_cast hx
  · exact Int.natCast_nonneg y
  · exact_mod_cast hy
  · simpa using hc

/-- The updated visited set returned by `flood_fill_cluster` is the old one
united with the returned cluster. -/
theorem flood_fill_cluster_snd (img : Image) (sx sy : Int)
    (visited : Finset Cell) :
    (flood_fill_cluster img sx sy visited).2 =
      visited ∪ (flood_fill_cluster img sx sy visited).1 := by
  unfold flood_fill_cluster
  by_cases h : (sx, sy) ∈ visited
  · rw [if_pos h]
    simp
  · rw [if_neg h]

/-- The cluster flood fill from an unvisited non-background start pixel
returns exactly the pixels 8-reachable from it. -/
theorem flood_fill_cluster_spec (img : Image) (sx sy : Int)
    (visited : Finset Cell) (hnv : (sx, sy) ∉ visited)
    (hs : img.nonBlackAt (sx, sy) = true) (v : Cell) :
    v ∈ (flood_fill_cluster img sx sy visited).1 ↔ reach8 img (sx, sy) v := by
  unfold flood_fill_cluster
  rw [if_neg hnv]
  have hfuel : ffMeasure (intBox img.width img.height) 8 [(sx, sy)] ∅ ≤
      9 * (img.width * img.height) + 2 := by
    rw [ffMeasure_start, intBox_card]
    omega
  exact (ffLoop_run_iff img.nonBlackAt nbrs8 true (intBox img.width img.height)
    8 (nonBlackAt_mem_intBox img) nbrs8_len _ hs _ hfuel v).trans
    (ffReach8_iff img _ v)

/-- A pixel set closed under single non-background 8-steps turns plain
8-reachability between its members into reachability within the set. -/
theorem reachWithin_of_closed (img : Image) (C : Finset Cell)
    (hcl : ∀ p ∈ C, ∀ q, adj8 p q → img.nonBlackAt q = true → q ∈ C)
    {p q : Cell} (hp : p ∈ C)
    (h : Relation.ReflTransGen (step8 img) p q) : reachWithin8 C p q := by
  refine ⟨hp, ?_⟩
  have key : ∀ v, Relation.ReflTransGen (step8 img) p v →
      v ∈ C ∧ Relation.ReflTransGen
        (fun a b => a ∈ C ∧ b ∈ C ∧ adj8 a b) p v := by
    intro v hv
    induction hv with
    | refl => exact ⟨hp, Relation.ReflTransGen.refl⟩
    | tail hab hbc ih =>
      have hbC := ih.1
      have hcC := hcl _ hbC _ hbc.2.2 hbc.2.1
      exact ⟨hcC, ih.2.tail ⟨hbC, hcC, hbc.2.2⟩⟩
  exact (key q h).2

/-- Every cluster the waypoint scan keeps is the full 8-reach set of some
non-background root, its pixels avoid the incoming visited set, and the kept
clusters are pairwise disjoint. -/
theorem detect_scan_clusters (img : Image) (minSize : Int)
    (cells : List (Nat × Nat)) :
    ∀ (visited : Finset Cell),
      (∀ c ∈ cells, c.1 < img.width ∧ c.2 < img.height) →
      (∀ p ∈ visited, ∀ q, reach8 img p q → q ∈ visited) →
      (∀ C ∈ detectScan img minSize cells visited,
        (∃ r, img.nonBlackAt r = true ∧ ∀ v, v ∈ C ↔ reach8 img r v) ∧
          (∀ p ∈ C, p ∉ visited)) ∧
        List.Pairwise (fun C D => ∀ p ∈ C, p ∉ D)
          (detectScan img minSize cells visited) := by
  induction cells with
  | nil =>
    intro visited _ _
    simp [detectScan]
  | cons c rest ih =>
    obtain ⟨x, y⟩ := c
    intro visited hb hvis
    have hbx := hb (x, y) (List.mem_cons_self _ _)
    simp only [detectScan]
    by_cases hcond : is_non_black_pixel (img.pixel x y) = true ∧
        ((x : Int), (y : Int)) ∉ visited
    · rw [if_pos hcond]
      have hroot : img.nonBlackAt ((x : Int), (y : Int)) = true :=
        nonBlackAt_intro img x y hbx.1 hbx.2 hcond.1
      have hspec := flood_fill_cluster_spec img x y visited hcond.2 hroot
      set c0 := (flood_fill_cluster img (x : Int) (y : Int) visited).1
        with hc0def
      have hc0closed : ∀ p ∈ c0, ∀ q, reach8 img p q → q ∈ c0 := by
        intro p hp q hr
        exact (hspec q).2 (reach8_trans ((hspec p).1 hp) hr)
      have hc0vis : ∀ p ∈ c0, p ∉ visited := by
        intro p hp hpv
        exact hcond.2 (hvis p hpv _ (reach8_symm ((hspec p).1 hp)))
      have hvis' : ∀ p ∈ visited ∪ c0, ∀ q, reach8 img p q →
          q ∈ visited ∪ c0 := by
        intro p hp q hr
        rcases Finset.mem_union.1 hp with hp | hp
        · exact Finset.mem_union_left _ (hvis p hp q hr)
        · exact Finset.mem_union_right _ (hc0closed p hp q hr)
      have hb' : ∀ c ∈ rest, c.1 < img.width ∧ c.2 < img.height :=
        fun c hc => hb c (List.mem_cons_of_mem _ hc)
      rw [flood_fill_cluster_snd]
      obtain ⟨ih1, ih2⟩ := ih (visited ∪ c0) hb' hvis'
      by_cases hkeep : minSize ≤ (c0.card : Int)
      · rw [if_pos hkeep]
        constructor
        · intro C hC
          rcases List.mem_cons.1 hC with rfl | hC
          · exact ⟨⟨((x : Int), (y : Int)), hroot, hspec⟩, hc0vis⟩
          · obtain ⟨hexr, hdis⟩ := ih1 C hC
            exact ⟨hexr, fun p hp hpv =>
              hdis p hp (Finset.mem_union_left _ hpv)⟩
        · rw [List.pairwise_cons]
          refine ⟨?_, ih2⟩
          intro D hD p hp hpD
          exact (ih1 D hD).2 p hpD (Finset.mem_union_right _ hp)
      · rw [if_neg hkeep]
        constructor
        · intro C hC
          obtain ⟨hexr, hdis⟩ := ih1 C hC
          exact ⟨hexr, fun p hp hpv =>
            hdis p hp (Finset.mem_union_left _ hpv)⟩
        · exact ih2
    · rw [if_neg hcond]
      exact ih visited (fun c hc => hb c (List.mem_cons_of_mem _ hc)) hvis

/-- C2: Connected-Component Analysis followed by in-place pruning leaves an
in-bounds cell true if and only if it was true before and belongs to the
maximum-cardinality 4-connected component of true cells of the original grid,
with ties broken in favour of the component first encountered in row-major
scan order; and an all-false grid is left unchanged. -/
theorem C2_largest_component_pruning (g : Grid) :
    (∀ x y : Nat, x < g.width → y < g.height →
      ((pruneGrid g).cell x y = true ↔
        g.cell x y = true ∧
          ∃ C, chosenComponent g C ∧ ((x : Int), (y : Int)) ∈ C)) ∧
    ((∀ x y : Nat, x < g.width → y < g.height → g.cell x y = false) →
      ∀ x y : Nat, (pruneGrid g).cell x y = g.cell x y) := by
  constructor
  · intro x y hx hy
    exact prune_cell_iff g x y hx hy
  · intro hall x y
    show (if x < g.width ∧ y < g.height then
        g.cell x y &&
          decide (((x : Int), (y : Int)) ∈ find_largest_connected_component g)
      else g.cell x y) = g.cell x y
    by_cases hb : x < g.width ∧ y < g.height
    · rw [if_pos hb, hall x y hb.1 hb.2]
      simp
    · rw [if_neg hb]

/-- Witness for C2 at two concrete grids: the 1x1 all-true grid for the
characterisation and the 1x1 all-false grid for the unchanged clause. -/
theorem C2_witness :
    ((pruneGrid allTrueGrid1).cell 0 0 = true ↔
      allTrueGrid1.cell 0 0 = true ∧
        ∃ C, chosenComponent allTrueGrid1 C ∧ ((0 : Int), (0 : Int)) ∈ C) ∧
    (pruneGrid allFalseGrid1).cell 0 0 = allFalseGrid1.cell 0 0 :=
  ⟨(C2_largest_component_pruning allTrueGrid1).1 0 0 (by decide) (by decide),
    (C2_largest_component_pruning allFalseGrid1).2 (fun _ _ _ _ => rfl) 0 0⟩

/-- C7: the pruning pass of the Connected-Component Analyzer is idempotent —
running it twice yields the same grid (same dimensions, same cells) as
running it once. -/
theorem C7_prune_idempotent (g : Grid) :
    (pruneGrid (pruneGrid g)).width = (pruneGrid g).width ∧
    (pruneGrid (pruneGrid g)).height = (pruneGrid g).height ∧
    ∀ x y : Nat, (pruneGrid (pruneGrid g)).cell x y = (pruneGrid g).cell x y :=
  ⟨rfl, rfl, fun x y => pruneGrid_idem g x y⟩

/-- C1 (amended): the legacy single-image workflow prunes its rasterized grid
to the largest 4-connected component, so any two true cells of its output are
mutually reachable by 4-connected true steps inside the output grid, and
every true output cell lies in the largest component of the pre-filtered
(rasterized) grid.  The layer-based water workflow performs no such pruning
(see the counterexample). -/
theorem C1_legacy_single_component (img : Image) (scale : Nat)
    (ocean_color land_color edge_color : RGB) (p q : Cell)
    (hp : (generate_navigation_grid img scale ocean_color land_color
      edge_color).grid.trueCell p = true)
    (hq : (generate_navigation_grid img scale ocean_color land_color
      edge_color).grid.trueCell q = true) :
    reach4 (generate_navigation_grid img scale ocean_color land_color
      edge_color).grid p q ∧
      p ∈ find_largest_connected_component
        (rasterize_map img scale ocean_color land_color edge_color) :=
  ⟨prune_reach _ hp hq, (trueCell_prune _ p).1 hp⟩

/-- Witness for C1 on a 1x1 white map with explicit reference colors. -/
theorem C1_witness :
    (generate_navigation_grid whiteDotImage 1 (255, 255, 255) (0, 255, 0)
        (0, 0, 0)).grid.trueCell ((0 : Int), (0 : Int)) = true ∧
    reach4 (generate_navigation_grid whiteDotImage 1 (255, 255, 255)
        (0, 255, 0) (0, 0, 0)).grid ((0 : Int), (0 : Int))
      ((0 : Int), (0 : Int)) :=
  ⟨by decide,
    (C1_legacy_single_component whiteDotImage 1 (255, 255, 255) (0, 255, 0)
      (0, 0, 0) ((0 : Int), (0 : Int)) ((0 : Int), (0 : Int)) (by decide)
      (by decide)).1⟩

/-- Counterexample to C1 as stated: the layer-based water workflow outputs a
grid with two true cells that are not mutually reachable — on a 30x10 water
image whose middle third is black, the output 3x1 grid has true cells at
(0,0) and (2,0) separated by a false cell, and no pruning is applied. -/
theorem C1_counterexample :
    (generate_navigation_grid_from_water splitWaterImage
        10).grid.trueCell ((0 : Int), (0 : Int)) = true ∧
    (generate_navigation_grid_from_water splitWaterImage
        10).grid.trueCell ((2 : Int), (0 : Int)) = true ∧
    ¬ reach4 (generate_navigation_grid_from_water splitWaterImage 10).grid
      ((0 : Int), (0 : Int)) ((2 : Int), (0 : Int)) := by
  refine ⟨by decide, by decide, ?_⟩
  intro hr
  have hS : ∀ p ∈ ({((0 : Int), (0 : Int))} : Finset Cell), ∀ q, adj4 p q →
      (generate_navigation_grid_from_water splitWaterImage
        10).grid.trueCell q = true →
      q ∈ ({((0 : Int), (0 : Int))} : Finset Cell) := by
    intro p hp q hadj htq
    rw [Finset.mem_singleton] at hp
    subst hp
    exfalso
    rcases hadj with ⟨h1, h2⟩ | ⟨h1, h2⟩ | ⟨h1, h2⟩ | ⟨h1, h2⟩ <;>
      (have hq : q = (q.1, q.2) := rfl
       rw [hq, h1, h2] at htq)
    · exact absurd htq (by decide)
    · exact absurd htq (by decide)
    · exact absurd htq (by decide)
    · exact absurd htq (by decide)
  have := reach4_closed_subset _ _ hS (Finset.mem_singleton_self _) hr.2
  rw [Finset.mem_singleton] at this
  exact absurd this (by decide)

/-- C3 (amended): the coordinate round trip recovers the centroid within one
unit per axis provided the source image is no larger than the target screen
(`W <= 1280`, `H <= 720`); for larger images the forward truncation can lose
more than one unit (see the counterexample). -/
theorem C3_roundtrip (W H ix iy : Nat) (hW : 1 ≤ W) (hH : 1 ≤ H)
    (hWle : W ≤ SCREEN_WIDTH) (hHle : H ≤ SCREEN_HEIGHT)
    (hix : ix < W) (hiy : iy < H) :
    |screenToImageX (image_to_screen_coords ix iy W H).1 W - (ix : ℚ)| ≤ 1 ∧
    |screenToImageY (image_to_screen_coords ix iy W H).2 H - (iy : ℚ)| ≤ 1 := by
  have hWQ : (0 : ℚ) < 1280 := by norm_num
  have hHQ : (0 : ℚ) < 720 := by norm_num
  constructor
  · have hsx : (image_to_screen_coords ix iy W H).1 = (ix * 1280) / W := rfl
    rw [hsx]
    unfold screenToImageX
    simp only [SCREEN_WIDTH, Nat.cast_ofNat]
    have hq1 : ((ix * 1280) / W) * W ≤ ix * 1280 := Nat.div_mul_le_self _ _
    have hq2 : ix * 1280 < ((ix * 1280) / W) * W + W := by
      have hdm := Nat.div_add_mod (ix * 1280) W
      have hmod := Nat.mod_lt (ix * 1280) (show 0 < W by omega)
      have hcomm : ((ix * 1280) / W) * W = W * ((ix * 1280) / W) :=
        Nat.mul_comm _ _
      omega
    have hcast1 : (((ix * 1280) / W : Nat) : ℚ) * W ≤ (ix : ℚ) * 1280 := by
      exact_mod_cast hq1
    have hcast2 : (ix : ℚ) * 1280 < (((ix * 1280) / W : Nat) : ℚ) * W + W := by
      exact_mod_cast hq2
    have hWq : (W : ℚ) ≤ 1280 := by exact_mod_cast hWle
    rw [abs_le]
    constructor
    · have hle : (ix : ℚ) - 1 ≤ (((ix * 1280) / W : Nat) : ℚ) * W / 1280 := by
        rw [le_div_iff hWQ]
        linarith
      linarith
    · have hle : (((ix * 1280) / W : Nat) : ℚ) * W / 1280 ≤ ix := by
        rw [div_le_iff hWQ]
        linarith
      linarith
  · have hsy : (image_to_screen_coords ix iy W H).2 = ((H - iy) * 720) / H := rfl
    rw [hsy]
    unfold screenToImageY
    simp only [SCREEN_HEIGHT, Nat.cast_ofNat]
    have hq1 : (((H - iy) * 720) / H) * H ≤ (H - iy) * 720 :=
      Nat.div_mul_le_self _ _
    have hq2 : (H - iy) * 720 < (((H - iy) * 720) / H) * H + H := by
      have hdm := Nat.div_add_mod ((H - iy) * 720) H
      have hmod := Nat.mod_lt ((H - iy) * 720) (show 0 < H by omega)
      have hcomm : (((H - iy) * 720) / H) * H = H * (((H - iy) * 720) / H) :=
        Nat.mul_comm _ _
      omega
    have hm : ((H - iy : Nat) : ℚ) = (H : ℚ) - iy := by
      push_cast [Nat.cast_sub hiy.le]
      ring
    have hcast1 : ((((H - iy) * 720) / H : Nat) : ℚ) * H ≤
        ((H : ℚ) - iy) * 720 := by
      rw [← hm]
      exact_mod_cast hq1
    have hcast2 : ((H : ℚ) - iy) * 720 <
        ((((H - iy) * 720) / H : Nat) : ℚ) * H + H := by
      rw [← hm]
      exact_mod_cast hq2
    have hHq : (H : ℚ) ≤ 720 := by exact_mod_cast hHle
    rw [abs_le]
    constructor
    · have hle : ((((H - iy) * 720) / H : Nat) : ℚ) * H / 720 ≤
          (H : ℚ) - iy := by
        rw [div_le_iff hHQ]
        linarith
      linarith
    · have hle : (H : ℚ) - iy - 1 ≤
          ((((H - iy) * 720) / H : Nat) : ℚ) * H / 720 := by
        rw [le_div_iff hHQ]
        linarith
      linarith

/-- Witness for C3 at a 1280x720 image and the centroid (100, 100). -/
theorem C3_witness :
    (1 ≤ 1280 ∧ 1 ≤ 720 ∧ 1280 ≤ SCREEN_WIDTH ∧ 720 ≤ SCREEN_HEIGHT ∧
      100 < 1280 ∧ 100 < 720) ∧
    |screenToImageX (image_to_screen_coords 100 100 1280 720).1 1280 -
      (100 : ℚ)| ≤ 1 ∧
    |screenToImageY (image_to_screen_coords 100 100 1280 720).2 720 -
      (100 : ℚ)| ≤ 1 :=
  ⟨⟨by decide, by decide, by decide, by decide, by decide, by decide⟩,
    C3_roundtrip 1280 720 100 100 (by decide) (by decide) (by decide)
      (by decide) (by decide) (by decide)⟩

/-- Counterexample to C3 as stated for every image size: at width 3840 the
centroid x = 2 maps to screen x = 0, and the exact inverse rescaling returns
0, an error of 2 units. -/
theorem C3_counterexample :
    1 ≤ 3840 ∧ 1 ≤ 720 ∧ 2 < 3840 ∧ 0 < 720 ∧
      ¬ (|screenToImageX (image_to_screen_coords 2 0 3840 720).1 3840 -
        (2 : ℚ)| ≤ 1) := by
  refine ⟨by norm_num, by norm_num, by norm_num, by norm_num, ?_⟩
  have h1 : (image_to_screen_coords 2 0 3840 720).1 = 0 := by decide
  rw [h1]
  unfold screenToImageX
  norm_num

/-- C5: both rasterizers produce a `(W div scale) x (H div scale)` grid
(trailing partial strips are excluded by integer division), each cell is the
active predicate applied to the single clamped centre pixel of its block, and
no other pixel influences a cell: two images of the same size that agree at
that one pixel yield the same cell value. -/
theorem C5_rasterizer (img : Image) (scale : Nat) (hs : 0 < scale)
    (ocean_color land_color edge_color : RGB) :
    (rasterize_water img scale).width = img.width / scale ∧
    (rasterize_water img scale).height = img.height / scale ∧
    (rasterize_map img scale ocean_color land_color edge_color).width =
      img.width / scale ∧
    (rasterize_map img scale ocean_color land_color edge_color).height =
      img.height / scale ∧
    (∀ cx cy : Nat,
      (rasterize_water img scale).cell cx cy =
        is_non_black_pixel (img.pixel
          (min (cx * scale + scale / 2) (img.width - 1))
          (min (cy * scale + scale / 2) (img.height - 1)))) ∧
    (∀ cx cy : Nat,
      (rasterize_map img scale ocean_color land_color edge_color).cell cx cy =
        decide (classify_pixel (img.pixel
          (min (cx * scale + scale / 2) (img.width - 1))
          (min (cy * scale + scale / 2) (img.height - 1)))
          ocean_color land_color edge_color = CellType.ocean)) ∧
    (∀ (img' : Image) (cx cy : Nat), img'.width = img.width →
      img'.height = img.height →
      img'.pixel (min (cx * scale + scale / 2) (img.width - 1))
          (min (cy * scale + scale / 2) (img.height - 1)) =
        img.pixel (min (cx * scale + scale / 2) (img.width - 1))
          (min (cy * scale + scale / 2) (img.height - 1)) →
      (rasterize_water img' scale).cell cx cy =
        (rasterize_water img scale).cell cx cy) := by
  refine ⟨rfl, rfl, rfl, rfl, fun _ _ => rfl, fun _ _ => rfl, ?_⟩
  intro img' cx cy hw hh hpix
  show is_non_black_pixel (sampleCenter img' scale cx cy) =
    is_non_black_pixel (sampleCenter img scale cx cy)
  unfold sampleCenter
  rw [hw, hh, hpix]

/-- Witness for C5 on the 1x1 white image at scale 1. -/
theorem C5_witness :
    0 < 1 ∧ (rasterize_water whiteDotImage 1).width = whiteDotImage.width / 1 :=
  ⟨by decide,
    (C5_rasterizer whiteDotImage 1 (by decide) (255, 255, 255) (0, 255, 0)
      (0, 0, 0)).1⟩

/-- C6: in the cluster list produced by the waypoint detector, every pixel of
a cluster is 8-connected-reachable from every other pixel of the same cluster
through pixels of that cluster, and the clusters are pairwise disjoint. -/
theorem C6_clusters (img : Image) (cluster_min_size : Int) :
    (∀ C ∈ detect_clusters img cluster_min_size, ∀ p ∈ C, ∀ q ∈ C,
      reachWithin8 C p q) ∧
    List.Pairwise (fun C D => ∀ p, p ∈ C → p ∉ D)
      (detect_clusters img cluster_min_size) := by
  obtain ⟨h1, h2⟩ := detect_scan_clusters img cluster_min_size
    (scanCells img.width img.height) ∅ scanCells_bounds
    (fun p hp => absurd hp (Finset.not_mem_empty p))
  constructor
  · intro C hC p hp q hq
    obtain ⟨⟨r, hrT, hiff⟩, _⟩ := h1 C hC
    have hcl : ∀ a ∈ C, ∀ b, adj8 a b → img.nonBlackAt b = true → b ∈ C := by
      intro a ha b hadj hbT
      have hra := (hiff a).1 ha
      exact (hiff b).2
        ⟨hra.1, hra.2.tail ⟨reach8_nonBlack_right hra, hbT, hadj⟩⟩
    have hrp := (hiff p).1 hp
    have hrq := (hiff q).1 hq
    exact reachWithin_of_closed img C hcl hp
      (reach8_trans (reach8_symm hrp) hrq).2
  · exact h2

/-- Witness for C6 on the 1x1 white marker image with minimum size 1. -/
theorem C6_witness :
    ({((0 : Int), (0 : Int))} : Finset Cell) ∈ detect_clusters whiteDotImage 1 ∧
    reachWithin8 {((0 : Int), (0 : Int))} ((0 : Int), (0 : Int))
      ((0 : Int), (0 : Int)) :=
  ⟨by decide,
    (C6_clusters whiteDotImage 1).1 _ (by decide) _ (by decide) _ (by decide)⟩

/-- C9: the top image row (image y = 0) maps to screen y exactly 720 (the
screen height), and every in-range image y maps into [0, 720]; 720 lies
outside the on-screen pixel rows 0..719, so waypoint screen positions can
fall outside them. -/
theorem C9_screen_y_range (W H ix iy : Nat) (hH : 1 ≤ H) :
    (image_to_screen_coords ix 0 W H).2 = SCREEN_HEIGHT ∧
    (iy ≤ H → (image_to_screen_coords ix iy W H).2 ≤ SCREEN_HEIGHT) := by
  constructor
  · show ((H - 0) * SCREEN_HEIGHT) / H = SCREEN_HEIGHT
    rw [Nat.sub_zero]
    exact Nat.mul_div_cancel_left SCREEN_HEIGHT (show 0 < H by omega)
  · intro hiy
    show ((H - iy) * SCREEN_HEIGHT) / H ≤ SCREEN_HEIGHT
    have h1 : (H - iy) * SCREEN_HEIGHT ≤ H * SCREEN_HEIGHT :=
      Nat.mul_le_mul_right _ (Nat.sub_le _ _)
    have h2 : (H - iy) * SCREEN_HEIGHT / H ≤ H * SCREEN_HEIGHT / H :=
      Nat.div_le_div_right h1
    rwa [Nat.mul_div_cancel_left SCREEN_HEIGHT (show 0 < H by omega)] at h2

/-- Witness for C9 at a 1280x720 image. -/
theorem C9_witness :
    (image_to_screen_coords 0 0 1280 720).2 = SCREEN_HEIGHT ∧
    (image_to_screen_coords 0 720 1280 720).2 ≤ SCREEN_HEIGHT :=
  ⟨(C9_screen_y_range 1280 720 0 720 (by decide)).1,
    (C9_screen_y_range 1280 720 0 720 (by decide)).2 (by decide)⟩

/-- C10: `find_cluster_center` returns `None` on the empty cluster, and on a
nonempty cluster returns a point inside any axis-aligned box containing all
members — in particular inside the cluster's bounding box. -/
theorem C10_cluster_center :
    find_cluster_center [] = none ∧
    ∀ (cluster : List Cell), cluster ≠ [] →
      ∀ lox hix loy hiy : Int,
        (∀ p ∈ cluster, lox ≤ p.1 ∧ p.1 ≤ hix ∧ loy ≤ p.2 ∧ p.2 ≤ hiy) →
        ∃ c, find_cluster_center cluster = some c ∧
          lox ≤ c.1 ∧ c.1 ≤ hix ∧ loy ≤ c.2 ∧ c.2 ≤ hiy := by
  constructor
  · rfl
  · intro cl hne lox hix loy hiy hb
    have hn : 0 < cl.length := List.length_pos.2 hne
    have hnz : (cl.length : Int) ≠ 0 := by exact_mod_cast Nat.pos_iff_ne_zero.1 hn
    have hpos : (0 : Int) < cl.length := by exact_mod_cast hn
    refine ⟨((cl.map Prod.fst).sum.fdiv cl.length,
      (cl.map Prod.snd).sum.fdiv cl.length), ?_, ?_, ?_, ?_, ?_⟩
    · unfold find_cluster_center
      rw [if_neg hne]
    · show lox ≤ (cl.map Prod.fst).sum.fdiv (cl.length : Int)
      rw [Int.fdiv_eq_ediv _ (by omega)]
      rw [Int.le_ediv_iff_mul_le hpos]
      have hlow : cl.length • lox ≤ (cl.map Prod.fst).sum := by
        have := List.card_nsmul_le_sum (cl.map Prod.fst) lox ?_
        · simpa using this
        · intro x hx
          obtain ⟨p, hp, rfl⟩ := List.mem_map.1 hx
          exact (hb p hp).1
      rw [nsmul_eq_mul] at hlow
      calc lox * (cl.length : Int) = (cl.length : Int) * lox := by ring
        _ ≤ _ := hlow
    · show (cl.map Prod.fst).sum.fdiv (cl.length : Int) ≤ hix
      rw [Int.fdiv_eq_ediv _ (by omega)]
      have hup : (cl.map Prod.fst).sum ≤ cl.length • hix := by
        have := List.sum_le_card_nsmul (cl.map Prod.fst) hix ?_
        · simpa using this
        · intro x hx
          obtain ⟨p, hp, rfl⟩ := List.mem_map.1 hx
          exact (hb p hp).2.1
      rw [nsmul_eq_mul] at hup
      have hup' : (cl.map Prod.fst).sum ≤ hix * (cl.length : Int) := by
        simpa [mul_comm] using hup
      calc (cl.map Prod.fst).sum / (cl.length : Int) ≤
          hix * (cl.length : Int) / (cl.length : Int) :=
            Int.ediv_le_ediv hpos (by simpa using hup')
        _ = hix := Int.mul_ediv_cancel hix hnz
    · show loy ≤ (cl.map Prod.snd).sum.fdiv (cl.length : Int)
      rw [Int.fdiv_eq_ediv _ (by omega)]
      rw [Int.le_ediv_iff_mul_le hpos]
      have hlow : cl.length • loy ≤ (cl.map Prod.snd).sum := by
        have := List.card_nsmul_le_sum (cl.map Prod.snd) loy ?_
        · simpa using this
        · intro x hx
          obtain ⟨p, hp, rfl⟩ := List.mem_map.1 hx
          exact (hb p hp).2.2.1
      rw [nsmul_eq_mul] at hlow
      calc loy * (cl.length : Int) = (cl.length : Int) * loy := by ring
        _ ≤ _ := hlow
    · show (cl.map Prod.snd).sum.fdiv (cl.length : Int) ≤ hiy
      rw [Int.fdiv_eq_ediv _ (by omega)]
      have hup : (cl.map Prod.snd).sum ≤ cl.length • hiy := by
        have := List.sum_le_card_nsmul (cl.map Prod.snd) hiy ?_
        · simpa using this
        · intro x hx
          obtain ⟨p, hp, rfl⟩ := List.mem_map.1 hx
          exact (hb p hp).2.2.2
      rw [nsmul_eq_mul] at hup
      have hup' : (cl.map Prod.snd).sum ≤ hiy * (cl.length : Int) := by
        simpa [mul_comm] using hup
      calc (cl.map Prod.snd).sum / (cl.length : Int) ≤
          hiy * (cl.length : Int) / (cl.length : Int) :=
            Int.ediv_le_ediv hpos (by simpa using hup')
        _ = hiy := Int.mul_ediv_cancel hiy hnz

/-- Witness for C10 on the two-pixel cluster `[(0, 0), (2, 0)]`. -/
theorem C10_witness :
    (([((0 : Int), (0 : Int)), ((2 : Int), (0 : Int))] : List Cell) ≠ []) ∧
    ∃ c, find_cluster_center
        [((0 : Int), (0 : Int)), ((2 : Int), (0 : Int))] = some c ∧
      (0 : Int) ≤ c.1 ∧ c.1 ≤ 2 ∧ (0 : Int) ≤ c.2 ∧ c.2 ≤ 0 :=
  ⟨by decide,
    C10_cluster_center.2 _ (by decide) 0 2 0 0 (by decide)⟩

/-- The port comparator is transitive. -/
theorem portLE_trans (a b c : PortWP) (h1 : portLE a b = true)
    (h2 : portLE b c = true) : portLE a c = true := by
  unfold portLE at *
  simp only [decide_eq_true_eq] at *
  omega

/-- The port comparator is total. -/
theorem portLE_total (a b : PortWP) : (portLE a b || portLE b a) = true := by
  unfold portLE
  simp only [Bool.or_eq_true, decide_eq_true_eq]
  omega

/-- Sorting a two-element port list with distinct keys, in either input
order, yields the ascending order (via permutation and sortedness of
`mergeSort`, without relying on its implementation). -/
theorem mergeSort_pair_of_lt {a b : PortWP} (hab : a.x < b.x)
    (l : List PortWP) (hl : l = [a, b] ∨ l = [b, a]) :
    l.mergeSort portLE = [a, b] := by
  have hne : a ≠ b := by
    intro h
    rw [h] at hab
    exact lt_irrefl _ hab
  have hperm : List.Perm (l.mergeSort portLE) l := List.mergeSort_perm l _
  have hsort := @List.sorted_mergeSort PortWP portLE portLE_trans portLE_total l
  have hlen : (l.mergeSort portLE).length = 2 := by
    rw [hperm.length_eq]
    rcases hl with rfl | rfl <;> rfl
  rcases hs : l.mergeSort portLE with _ | ⟨u, rest⟩
  · rw [hs] at hlen
    simp at hlen
  rcases rest with _ | ⟨v, rest2⟩
  · rw [hs] at hlen
    simp at hlen
  rcases rest2 with _ | ⟨w, rest3⟩
  swap
  · rw [hs] at hlen
    simp at hlen
  rw [hs] at hperm hsort
  have hu : u ∈ l := hperm.mem_iff.1 (List.mem_cons_self _ _)
  have hv : v ∈ l :=
    hperm.mem_iff.1 (List.mem_cons_of_mem _ (List.mem_cons_self _ _))
  have hmemab : ∀ z ∈ l, z = a ∨ z = b := by
    intro z hz
    rcases hl with rfl | rfl <;>
      (simp only [List.mem_cons, List.not_mem_nil, or_false] at hz; tauto)
  have hlnodup : l.Nodup := by
    rcases hl with rfl | rfl <;>
      simp [List.nodup_cons, hne, Ne.symm hne]
  have hnodup : ([u, v] : List PortWP).Nodup := hperm.nodup_iff.2 hlnodup
  have huv : u ≠ v := by
    rcases List.nodup_cons.1 hnodup with ⟨hu_nin, _⟩
    intro h
    exact hu_nin (by rw [h]; exact List.mem_cons_self _ _)
  have hrel : u.x ≤ v.x := by
    rw [List.pairwise_cons] at hsort
    have := hsort.1 v (List.mem_cons_self _ _)
    unfold portLE at this
    exact of_decide_eq_true this
  rcases hmemab u hu with rfl | rfl
  · rcases hmemab v hv with h | rfl
    · exact absurd h.symm huv
    · rfl
  · rcases hmemab v hv with rfl | rfl
    · exact absurd hrel (not_le.2 hab)
    · exact absurd rfl huv

/-- C8: with exactly two ports, the one with the smaller screen-space X is
named "Caribbean Port" and the other "European Port" (whichever order they
arrive in); with any other count, the result lists the ports in ascending X
order, carries the same positions as the input, and the k-th port's name
embeds its 1-based rank and its own X coordinate. -/
theorem C8_port_naming :
    (∀ a b : PortWP, a.x < b.x →
      assign_port_names [a, b] =
        [{ a with name := "Caribbean Port" },
          { b with name := "European Port" }] ∧
      assign_port_names [b, a] =
        [{ a with name := "Caribbean Port" },
          { b with name := "European Port" }]) ∧
    (∀ ports : List PortWP, ports.length ≠ 2 →
      List.Perm ((assign_port_names ports).map (fun p => (p.x, p.y)))
        (ports.map (fun p => (p.x, p.y))) ∧
      List.Pairwise (fun p q : PortWP => p.x ≤ q.x)
        (assign_port_names ports) ∧
      ∀ (i : Nat) (hi : i < (assign_port_names ports).length),
        ((assign_port_names ports).get ⟨i, hi⟩).name =
          "Port " ++ toString (i + 1) ++ " (x=" ++
            toString (((assign_port_names ports).get ⟨i, hi⟩).x) ++ ")") := by
  constructor
  · intro a b hab
    constructor
    · have hs := mergeSort_pair_of_lt hab [a, b] (Or.inl rfl)
      unfold assign_port_names
      rw [hs]
      simp
    · have hs := mergeSort_pair_of_lt hab [b, a] (Or.inr rfl)
      unfold assign_port_names
      rw [hs]
      simp
  · intro ports hne2
    by_cases h0 : ports.length = 0
    · have hpe : ports = [] := List.length_eq_zero.1 h0
      subst hpe
      have hres : assign_port_names ([] : List PortWP) = [] := rfl
      refine ⟨by rw [hres], by rw [hres]; exact List.Pairwise.nil, ?_⟩
      intro i hi
      rw [hres] at hi
      exact absurd hi (by simp)
    · have hres : assign_port_names ports =
          (ports.mergeSort portLE).enum.map (fun ip =>
            { ip.2 with
              name := "Port " ++ toString (ip.1 + 1) ++ " (x=" ++
                toString ip.2.x ++ ")" }) := by
        unfold assign_port_names
        rw [if_neg h0, if_neg hne2]
      refine ⟨?_, ?_, ?_⟩
      · rw [hres]
        have h1 : (((ports.mergeSort portLE).enum.map (fun ip =>
            { ip.2 with
              name := "Port " ++ toString (ip.1 + 1) ++ " (x=" ++
                toString ip.2.x ++ ")" })).map (fun p => (p.x, p.y))) =
            (ports.mergeSort portLE).map (fun p => (p.x, p.y)) := by
          rw [List.map_map]
          conv_rhs => rw [← List.enum_map_snd (ports.mergeSort portLE),
            List.map_map]
          rfl
        rw [h1]
        exact (List.mergeSort_perm ports portLE).map _
      · rw [hres, List.pairwise_map]
        have hsort := @List.sorted_mergeSort PortWP portLE portLE_trans
          portLE_total ports
        rw [← List.enum_map_snd (ports.mergeSort portLE),
          List.pairwise_map] at hsort
        refine hsort.imp ?_
        intro ip jp h
        unfold portLE at h
        exact of_decide_eq_true h
      · intro i hi
        have hi2 : i < ((ports.mergeSort portLE).enum.map (fun ip =>
            { ip.2 with
              name := "Port " ++ toString (ip.1 + 1) ++ " (x=" ++
                toString ip.2.x ++ ")" })).length := by
          rw [← hres]
          exact hi
        have hgeteq := List.get_of_eq hres ⟨i, hi⟩
        rw [hgeteq, List.get_eq_getElem, List.getElem_map, List.getElem_enum]

/-- Witness for C8: two concrete ports in ascending order get the fixed
names, and a single port gets its rank-and-x name. -/
theorem C8_witness :
    assign_port_names [⟨0, 0, "Port 1"⟩, ⟨5, 0, "Port 2"⟩] =
      [⟨0, 0, "Caribbean Port"⟩, ⟨5, 0, "European Port"⟩] ∧
    ((assign_port_names [⟨3, 4, "Island 1"⟩]).map (fun p => p.name)).head? =
      some "Port 1 (x=3)" := by
  constructor
  · exact (C8_port_naming.1 ⟨0, 0, "Port 1"⟩ ⟨5, 0, "Port 2"⟩ (by decide)).1
  · obtain ⟨hperm, _, hname⟩ :=
      C8_port_naming.2 [⟨3, 4, "Island 1"⟩] (by decide)
    have hlen : (assign_port_names [⟨3, 4, "Island 1"⟩]).length = 1 := by
      simpa using hperm.length_eq
    rcases hr : assign_port_names [⟨3, 4, "Island 1"⟩] with
      _ | ⟨r, _ | ⟨r2, rest2⟩⟩
    · rw [hr] at hlen
      simp at hlen
    · rw [hr] at hperm
      have hxy : (r.x, r.y) = ((3 : Int), (4 : Int)) := by
        have h1 := List.perm_singleton.1 hperm
        simp only [List.map_cons, List.map_nil, List.cons.injEq] at h1
        exact h1.1
      have hb0 : 0 < (assign_port_names [⟨3, 4, "Island 1"⟩]).length := by
        rw [hlen]
        omega
      have hname0 := hname 0 hb0
      have hget : (assign_port_names [⟨3, 4, "Island 1"⟩]).get ⟨0, hb0⟩ = r := by
        have h2 := List.get_of_eq hr ⟨0, hb0⟩
        simpa using h2
      rw [hget] at hname0
      have hx3 : r.x = 3 := by
        have h3 := congrArg Prod.fst hxy
        simpa using h3
      simp only [List.map_cons, List.map_nil, List.head?_cons]
      rw [hname0, hx3]
      rfl
    · rw [hr] at hlen
      simp at hlen
